import Mathlib

/-!
Verification development for the AddressHistory core: the coverage-gap
engine (`getCoverageGaps` and its date helpers) and the record store
(`updateAddress`, `deleteAddress`, `writeStore`), together with the export
layer's `addressOverlapsRange` filter.

Dates are modelled by their UTC calendar components `(y, m, d)`; a JS
`Date` produced at a day boundary is determined by these components, and
comparison of such `Date` values (epoch milliseconds) coincides with
lexicographic comparison of the components.  String parsing and formatting
are implemented over character lists so that every definition evaluates
inside the kernel.
-/

/-- A calendar date: the UTC components of a JS `Date` at a day boundary. -/
structure Date where
  y : Nat
  m : Nat
  d : Nat
deriving DecidableEq, Repr

/-- Chronological strict order on day-boundary `Date` values (lexicographic on
components; this is what `<` between JS `Date`s computes via epoch millis). -/
def dateLt (a b : Date) : Prop :=
  a.y < b.y ∨ (a.y = b.y ∧ (a.m < b.m ∨ (a.m = b.m ∧ a.d < b.d)))

instance (a b : Date) : Decidable (dateLt a b) := by
  unfold dateLt; infer_instance

/-- Chronological order, non-strict. -/
def dateLe (a b : Date) : Prop :=
  dateLt a b ∨ a = b

instance (a b : Date) : Decidable (dateLe a b) := by
  unfold dateLe; infer_instance

/-- Gregorian leap-year test, as in the ECMAScript calendar model. -/
def isLeapYear (y : Nat) : Bool :=
  (y % 4 == 0 && y % 100 != 0) || y % 400 == 0

/-- Number of days of month `m` (1-based) of year `y` in the ECMAScript
calendar model. Months outside 1..12 never reach this function. -/
def daysInMonth (y m : Nat) : Nat :=
  if m = 2 then (if isLeapYear y then 29 else 28)
  else if m = 4 ∨ m = 6 ∨ m = 9 ∨ m = 11 then 30
  else 31

/-- Roll a day count `d ≥ 1` that may exceed the length of month `m`
(1-based) into the following months, as ECMAScript `MakeDay` does when
`Date.UTC` receives an out-of-range day.  The fuel argument only bounds the
recursion; `d` months always suffice since every step consumes at least 28
days. -/
def normalizeDayAux : Nat → Nat → Nat → Nat → Date
  | 0, y, m, d => ⟨y, m, d⟩
  | fuel + 1, y, m, d =>
    if daysInMonth y m < d then
      if m = 12 then normalizeDayAux fuel (y + 1) 1 (d - 31)
      else normalizeDayAux fuel y (m + 1) (d - daysInMonth y m)
    else ⟨y, m, d⟩

/-- Day-overflow normalization entry point. -/
def normalizeDay (y m d : Nat) : Date :=
  normalizeDayAux d y m d

/-- The date denoted by `Date.UTC(y, m0, d)` for `m0, d ≥ 0`: ECMAScript
maps a year argument in 0..99 to 1900+year, carries month overflow into the
year, and resolves day `0` to the last day of the preceding month and day
overflow into following months.  (Negative arguments never occur at the
call sites embedded here.) -/
def dateUTC (y m0 d : Nat) : Date :=
  let yr := if y ≤ 99 then 1900 + y else y
  let yy := yr + m0 / 12
  let mm := m0 % 12 + 1
  if d = 0 then
    (if mm = 1 then ⟨yy - 1, 12, 31⟩ else ⟨yy, mm - 1, daysInMonth yy (mm - 1)⟩)
  else normalizeDay yy mm d

/-- Split a character list at every dash, as `value.split("-")` does. -/
def splitOnDash : List Char → List (List Char)
  | [] => [[]]
  | c :: rest =>
    let groups := splitOnDash rest
    if c = '-' then [] :: groups
    else
      match groups with
      | [] => [[c]]
      | g :: gs => (c :: g) :: gs

/-- JS `Number(part)` restricted to the shapes date parts take: a nonempty
all-digit string denotes its value, anything else is treated as the NaN
outcome (`none`). -/
def digitsVal (cs : List Char) : Option Nat :=
  if cs = [] then none
  else
    cs.foldl
      (fun acc c =>
        match acc with
        | some n => if c.isDigit then some (n * 10 + (c.toNat - 48)) else none
        | none => none)
      (some 0)

/-- The gap engine's `parseDate`: split on dashes, convert the first three
parts with `Number`, reject missing, non-numeric or zero components, then
build the date with `Date.UTC(year, month - 1, day)`. -/
def parseDate (value : String) : Option Date :=
  let nums := (splitOnDash value.data).map digitsVal
  match nums[0]?, nums[1]?, nums[2]? with
  | some (some year), some (some month), some (some day) =>
    if year = 0 ∨ month = 0 ∨ day = 0 then none
    else some (dateUTC year (month - 1) day)
  | _, _, _ => none

/-- Character for a decimal digit value. -/
def digitChar (n : Nat) : Char :=
  Char.ofNat (48 + n % 10)

/-- The engine's `formatDate`: `date.toISOString().slice(0, 10)`, i.e.
zero-padded `YYYY-MM-DD`.  Faithful for years up to 9999 (all dates the
embedded code produces). -/
def formatDate (date : Date) : String :=
  ⟨[digitChar (date.y / 1000), digitChar (date.y / 100), digitChar (date.y / 10),
    digitChar date.y, '-', digitChar (date.m / 10), digitChar date.m, '-',
    digitChar (date.d / 10), digitChar date.d]⟩

/-- `addDays(date, 1)`: the next calendar day. -/
def addOneDay (x : Date) : Date :=
  if x.d < daysInMonth x.y x.m then ⟨x.y, x.m, x.d + 1⟩
  else if x.m < 12 then ⟨x.y, x.m + 1, 1⟩
  else ⟨x.y + 1, 1, 1⟩

/-- `addDays(date, -1)`: the previous calendar day. -/
def subOneDay (x : Date) : Date :=
  if 1 < x.d then ⟨x.y, x.m, x.d - 1⟩
  else if 1 < x.m then ⟨x.y, x.m - 1, daysInMonth x.y (x.m - 1)⟩
  else ⟨x.y - 1, 12, 31⟩

/-- The engine's `clampDate`. -/
def clampDate (date min max : Date) : Date :=
  if dateLt date min then min
  else if dateLt max date then max
  else date

/-- The engine's `subtractYears`: subtract from the year component, keep
month and day, and fall back to `Date.UTC(year, month + 1, 0)` (the last
day of the month) when the day does not exist in the target month.  The
month variable is 0-based as in the source. -/
def subtractYears (date : Date) (years : Nat) : Date :=
  let year := date.y - years
  let month := date.m - 1
  let day := date.d
  let candidate := dateUTC year month day
  if candidate.m - 1 ≠ month then dateUTC year (month + 1) 0
  else candidate

/-- A query range, holding `YYYY-MM-DD` strings (`stop` is the source's
`end`, which Lean reserves). -/
structure DateRange where
  start : String
  stop : String
deriving DecidableEq, Repr

/-- `getLastThreeYearsRange`: range from `today` minus three calendar years
to `today`, where `today` is already a day-boundary date. -/
def getLastThreeYearsRange (today : Date) : DateRange :=
  let dateEnd := dateUTC today.y (today.m - 1) today.d
  let dateStart := subtractYears dateEnd 3
  ⟨formatDate dateStart, formatDate dateEnd⟩

/-- An address record from the store (`storage.ts`). -/
structure Address where
  id : String
  line1 : String
  line2 : Option String := none
  town : String
  county : Option String := none
  postcode : String
  country : String
  startDate : String
  endDate : Option String := none
  createdAt : String
  updatedAt : String
deriving DecidableEq, Repr

/-- An uncovered sub-range reported by the gap engine (`stop` is the
source's `end`). -/
structure Gap where
  start : String
  stop : String
  isLeading : Bool
  isTrailing : Bool
deriving DecidableEq, Repr

/-- The engine's per-address parse/discard/clamp step: parse `startDate`
and the effective end date (absent `endDate` falls back to the range end
string), drop the address when a part fails to parse or the interval is
inverted, and clamp both endpoints to the query range. -/
def parsedRanges (addresses : List Address) (range : DateRange)
    (startDate endDate : Date) : List (Date × Date) :=
  addresses.filterMap fun address =>
    match parseDate address.startDate, parseDate (address.endDate.getD range.stop) with
    | some s, some e =>
      if dateLt e s then none
      else some (clampDate s startDate endDate, clampDate e startDate endDate)
    | _, _ => none

/-- Stable insertion of an interval into a list sorted by start date; the
new element goes after every strictly earlier start and before equal ones. -/
def insertByStart (r : Date × Date) : List (Date × Date) → List (Date × Date)
  | [] => [r]
  | x :: xs => if dateLt x.1 r.1 then x :: insertByStart r xs else r :: x :: xs

/-- The engine's `.sort((a, b) => a.start.getTime() - b.start.getTime())`:
`Array.prototype.sort` with this comparator is specified as a stable sort
by ascending start date, realised here by stable insertion sort. -/
def sortByStart : List (Date × Date) → List (Date × Date)
  | [] => []
  | x :: xs => insertByStart x (sortByStart xs)

/-- One iteration of the engine's merge loop: compare the incoming interval
with the last merged run, extend that run in place when the interval starts
no later than one day past the run's end, and open a new run otherwise. -/
def mergeStep (merged : List (Date × Date)) (rangeItem : Date × Date) :
    List (Date × Date) :=
  match merged.getLast? with
  | none => [rangeItem]
  | some last =>
    if dateLe rangeItem.1 (addOneDay last.2) then
      if dateLt last.2 rangeItem.2 then merged.dropLast ++ [(last.1, rangeItem.2)]
      else merged
    else merged ++ [rangeItem]

/-- The engine's merge loop over the sorted interval list. -/
def mergeRanges (ranges : List (Date × Date)) : List (Date × Date) :=
  ranges.foldl mergeStep []

/-- The engine's internal-gap loop: between each pair of consecutive merged
runs, emit `[prev.end + 1, next.start - 1]` when that range is nonempty,
with both flags false. -/
def internalGapsList : List (Date × Date) → List Gap
  | current :: next :: rest =>
    (if dateLe (addOneDay current.2) (subOneDay next.1) then
      [⟨formatDate (addOneDay current.2), formatDate (subOneDay next.1), false, false⟩]
     else [])
    ++ internalGapsList (next :: rest)
  | _ => []

/-- Gap emission once the merged runs are known: a leading gap when the
first run starts after the range start, the internal gaps, and a trailing
gap when the last run ends before the range end.  The empty case never
arises: the merge of a nonempty list is nonempty. -/
def gapsFromMerged (merged : List (Date × Date)) (startDate endDate : Date) :
    List Gap :=
  match merged with
  | [] => []
  | first :: _ =>
    (if dateLt startDate first.1 then
      [⟨formatDate startDate, formatDate (subOneDay first.1), true, false⟩]
     else [])
    ++ internalGapsList merged
    ++ (match merged.getLast? with
        | some lastRun =>
          if dateLt lastRun.2 endDate then
            [⟨formatDate (addOneDay lastRun.2), formatDate endDate, false, true⟩]
          else []
        | none => [])

/-- The gap engine `getCoverageGaps`: reject an unparseable or inverted
query range with an empty result; report the whole range as one
leading-and-trailing gap when no interval survives; otherwise sort, merge
and emit the gaps. -/
def getCoverageGaps (addresses : List Address) (range : DateRange) : List Gap :=
  match parseDate range.start, parseDate range.stop with
  | some startDate, some endDate =>
    if dateLt endDate startDate then []
    else
      let ranges := sortByStart (parsedRanges addresses range startDate endDate)
      match ranges with
      | [] => [⟨range.start, range.stop, true, true⟩]
      | _ => gapsFromMerged (mergeRanges ranges) startDate endDate
  | _, _ => []

/-- `getLastThreeYearGaps`: the gap report for the default range. -/
def getLastThreeYearGaps (addresses : List Address) (today : Date) : List Gap :=
  getCoverageGaps addresses (getLastThreeYearsRange today)

/-- Metadata of an uploaded document (`storage.ts`). -/
structure DocumentMeta where
  id : String
  addressId : String
  originalName : String
  storedName : String
  mimeType : String
  size : Nat
  uploadedAt : String
deriving DecidableEq, Repr

/-- The persisted snapshot: both collections as one aggregate. -/
structure Store where
  addresses : List Address
  documents : List DocumentMeta
deriving DecidableEq, Repr

/-- The uploads directory as a set of stored file names, plus the names
whose `unlink` fails with an unexpected (non-`ENOENT`) error such as
`EPERM`; a name in neither list is simply absent. -/
structure FSys where
  files : List String
  failing : List String
deriving DecidableEq, Repr

/-- `deleteUploadFile`: unlink the document's backing file, swallowing
`ENOENT` (the file is already gone) and rethrowing any other error. -/
def deleteUploadFile (document : DocumentMeta) (fsys : FSys) : Except String FSys :=
  if document.storedName ∈ fsys.failing then .error document.storedName
  else .ok { fsys with files := fsys.files.erase document.storedName }

/-- The `for` loop inside `deleteAddress`: delete backing files one by one;
an uncaught error aborts the loop, leaving later files untouched. -/
def deleteAddressCascade (documents : List DocumentMeta) (fsys : FSys) :
    Option String × FSys :=
  match documents with
  | [] => (none, fsys)
  | doc :: rest =>
    match deleteUploadFile doc fsys with
    | .ok fsys' => deleteAddressCascade rest fsys'
    | .error e => (some e, fsys)

/-- `deleteAddress`: filter the address out, delete the backing file of
every document attached to it, then persist the filtered snapshot.  The
returned `Option String` is the error that escaped, if any; when it is
`some`, execution never reached `writeStore`, so the original snapshot is
returned unchanged alongside the partially-updated file system. -/
def deleteAddress (id : String) (store : Store) (fsys : FSys) :
    Option String × Store × FSys :=
  let remainingAddresses := store.addresses.filter fun address => address.id != id
  let removedDocuments := store.documents.filter fun doc => doc.addressId == id
  let remainingDocuments := store.documents.filter fun doc => doc.addressId != id
  match deleteAddressCascade removedDocuments fsys with
  | (some e, fsys') => (some e, store, fsys')
  | (none, fsys') => (none, ⟨remainingAddresses, remainingDocuments⟩, fsys')

/-- The partial update payload accepted by `updateAddress`: an outer `none`
means the key is absent from the JS `updates` object, so the field keeps
its stored value; for the optional address fields a present key carries an
inner `Option String` (JS `string | undefined`). -/
structure AddressUpdates where
  line1 : Option String := none
  line2 : Option (Option String) := none
  town : Option String := none
  county : Option (Option String) := none
  postcode : Option String := none
  country : Option String := none
  startDate : Option String := none
  endDate : Option (Option String) := none
deriving DecidableEq, Repr

/-- The spread `{ ...existing, ...updates, updatedAt: now }`: supplied keys
override, `id` and `createdAt` are not part of the update type and are
copied from the existing record, `updatedAt` is re-stamped. -/
def applyUpdates (existing : Address) (updates : AddressUpdates) (now : String) :
    Address :=
  { id := existing.id
    line1 := updates.line1.getD existing.line1
    line2 := updates.line2.getD existing.line2
    town := updates.town.getD existing.town
    county := updates.county.getD existing.county
    postcode := updates.postcode.getD existing.postcode
    country := updates.country.getD existing.country
    startDate := updates.startDate.getD existing.startDate
    endDate := updates.endDate.getD existing.endDate
    createdAt := existing.createdAt
    updatedAt := now }

/-- `updateAddress`: locate the record by id (`findIndex`), return `none`
(the JS `null`, mapped to a 404 by the route) without touching the snapshot
when it is absent, otherwise merge the updates over the record, overwrite
it in place and persist.  The unreachable inner `none` matches a
`findIndex` result outside the array, which cannot happen. -/
def updateAddress (id : String) (updates : AddressUpdates) (now : String)
    (store : Store) : Option Address × Store :=
  match store.addresses.findIdx? (fun address => address.id == id) with
  | none => (none, store)
  | some index =>
    match store.addresses[index]? with
    | none => (none, store)
    | some existing =>
      let updated := applyUpdates existing updates now
      (some updated, ⟨store.addresses.set index updated, store.documents⟩)

/-- File-system effects a store operation can perform on paths, recorded as
a trace.  `writeFileDirect` is Node's `fs.writeFile`: an in-place
truncate-and-write of the target path.  `renameReplace` is the atomic
replace primitive (`fs.rename` onto the target); the embedded code never
performs it. -/
inductive FileOp where
  | mkdirRecursive (path : String)
  | writeFileDirect (path : String)
  | renameReplace (src dst : String)
deriving DecidableEq, Repr

/-- Whether a trace entry is an atomic rename-over-target. -/
def FileOp.isRenameReplace : FileOp → Bool
  | .renameReplace _ _ => true
  | _ => false

/-- `path.join(process.cwd(), "data")` and friends, relative to the working
directory. -/
def dataDir : String := "data"

/-- The uploads directory path. -/
def uploadsDir : String := "data/uploads"

/-- The snapshot path. -/
def storePath : String := "data/store.json"

/-- `ensureDataDirs`: one recursive `mkdir` of the uploads directory. -/
def ensureDataDirsTrace : List FileOp := [.mkdirRecursive uploadsDir]

/-- The file-system trace of `writeStore`: ensure the directories, then a
single direct `fs.writeFile` of the serialized snapshot to the store path. -/
def writeStoreTrace : List FileOp :=
  ensureDataDirsTrace ++ [.writeFileDirect storePath]

/-- The export route's `addressOverlapsRange` (reimplemented there with an
identical `parseDate`): false when any of the four dates fails to parse,
otherwise `addressStart <= rangeEnd && addressEnd >= rangeStart`, with an
absent end date falling back to the range end. -/
def addressOverlapsRange (startDate : String) (endDate : Option String)
    (rangeStart rangeEnd : String) : Bool :=
  match parseDate startDate, parseDate (endDate.getD rangeEnd),
      parseDate rangeStart, parseDate rangeEnd with
  | some addressStart, some addressEnd, some start, some stop =>
    decide (dateLe addressStart stop) && decide (dateLe start addressEnd)
  | _, _, _, _ => false

/-- Well-formedness of a calendar date: month in 1..12 and day within the
month.  Every date built by `parseDate`, `dateUTC`, `clampDate` or
`addOneDay` satisfies this. -/
def NormalizedDate (x : Date) : Prop :=
  1 ≤ x.y ∧ 1 ≤ x.m ∧ x.m ≤ 12 ∧ 1 ≤ x.d ∧ x.d ≤ daysInMonth x.y x.m

/-- The set of days covered by a list of closed day intervals. -/
def coversD (rs : List (Date × Date)) (x : Date) : Prop :=
  ∃ r ∈ rs, dateLe r.1 x ∧ dateLe x r.2

/-- A canonical run decomposition: nonempty intervals, each ending at least
two days before the next begins (so at least one uncovered day separates
consecutive runs). -/
def SepRuns (l : List (Date × Date)) : Prop :=
  l.Chain' (fun a b => dateLt (addOneDay a.2) b.1) ∧ ∀ r ∈ l, dateLe r.1 r.2

/-- Structural form of the merge loop, carrying the run under
construction as an accumulator instead of mutating the output's last
element. -/
def mergeRec (cur : Date × Date) : List (Date × Date) → List (Date × Date)
  | [] => [cur]
  | r :: rs =>
    if dateLe r.1 (addOneDay cur.2) then
      mergeRec (cur.1, if dateLt cur.2 r.2 then r.2 else cur.2) rs
    else cur :: mergeRec r rs

/-- The specification's reading of the internal-gap rule: for each pair of
consecutive merged runs, one gap from the day after the previous run's end
to the day before the next run's start, kept only when that range is
nonempty, with both flags false. -/
def internalGapsSpec (runs : List (Date × Date)) : List Gap :=
  (runs.zip runs.tail).filterMap fun pq =>
    if dateLe (addOneDay pq.1.2) (subOneDay pq.2.1) then
      some ⟨formatDate (addOneDay pq.1.2), formatDate (subOneDay pq.2.1), false, false⟩
    else none

/-- Concrete address used by the store counterexamples and witnesses. -/
def cexAddress : Address :=
  { id := "A", line1 := "1 High Street", town := "Leeds", postcode := "LS1",
    country := "UK", startDate := "2020-01-01", createdAt := "2020",
    updatedAt := "2020" }

/-- A document of `cexAddress` whose backing file deletion fails with a
non-`ENOENT` error. -/
def cexDoc1 : DocumentMeta :=
  { id := "d1", addressId := "A", originalName := "one.pdf",
    storedName := "f1", mimeType := "application/pdf", size := 10,
    uploadedAt := "2020" }

/-- A second document of `cexAddress`, with its file present and
deletable. -/
def cexDoc2 : DocumentMeta :=
  { id := "d2", addressId := "A", originalName := "two.pdf",
    storedName := "f2", mimeType := "application/pdf", size := 20,
    uploadedAt := "2020" }

/-- The snapshot holding the address and its two documents. -/
def cexStore : Store := ⟨[cexAddress], [cexDoc1, cexDoc2]⟩

/-- An uploads directory where both files exist but deleting `f1` fails
with an unexpected error. -/
def cexFSys : FSys := ⟨["f1", "f2"], ["f1"]⟩

/-- An address entirely before the query range, used to separate the
export filter from the gap engine's keep step. -/
def cexOldAddress : Address :=
  { id := "O", line1 := "9 Old Road", town := "York", postcode := "YO1",
    country := "UK", startDate := "1990-01-01",
    endDate := some "1990-12-31", createdAt := "1990", updatedAt := "1990" }

/-- Well-formedness of a date is decidable. -/
instance (x : Date) : Decidable (NormalizedDate x) := by
  unfold NormalizedDate; infer_instance

/-- An uploads directory with both counterexample files present and no
failing deletions. -/
def okFSys : FSys := ⟨["f1", "f2"], []⟩

/-- First address of the specification's worked example: covered during
the first half of 2021. -/
def gapAddrA : Address :=
  { id := "a1", line1 := "1 High Street", town := "Leeds", postcode := "LS1",
    country := "UK", startDate := "2021-01-01",
    endDate := some "2021-06-30", createdAt := "c1", updatedAt := "u1" }

/-- Second address of the worked example: ongoing residence from
September 2021. -/
def gapAddrB : Address :=
  { id := "a2", line1 := "2 Low Street", town := "York", postcode := "YO1",
    country := "UK", startDate := "2021-09-01", endDate := none,
    createdAt := "c2", updatedAt := "u2" }

/-- An address covering all of 2021, to be split into two adjacent
pieces. -/
def gapAddrC : Address :=
  { id := "a4", line1 := "4 Mid Street", town := "Hull", postcode := "HU1",
    country := "UK", startDate := "2021-01-01",
    endDate := some "2021-12-31", createdAt := "c4", updatedAt := "u4" }

/-- An address with an unparseable start date. -/
def gapAddrBad : Address :=
  { id := "a3", line1 := "3 Bad Street", town := "Bath", postcode := "BA1",
    country := "UK", startDate := "soon", endDate := some "2021-12-31",
    createdAt := "c3", updatedAt := "u3" }

/-- Component characterization of date equality. -/
theorem date_eq_iff {a b : Date} : a = b ↔ a.y = b.y ∧ a.m = b.m ∧ a.d = b.d := by
  cases a; cases b; simp [Date.mk.injEq]

theorem dateLt_irrefl (a : Date) : ¬ dateLt a a := by
  cases a; simp [dateLt]

theorem dateLt_trans {a b c : Date} (h1 : dateLt a b) (h2 : dateLt b c) :
    dateLt a c := by
  cases a; cases b; cases c; simp only [dateLt] at *; omega

theorem dateLe_refl (a : Date) : dateLe a a := Or.inr rfl

theorem dateLe_of_lt {a b : Date} (h : dateLt a b) : dateLe a b := Or.inl h

theorem dateLe_trans {a b c : Date} (h1 : dateLe a b) (h2 : dateLe b c) :
    dateLe a c := by
  cases a; cases b; cases c
  simp only [dateLe, dateLt, Date.mk.injEq] at *; omega

theorem dateLt_of_le_of_lt {a b c : Date} (h1 : dateLe a b) (h2 : dateLt b c) :
    dateLt a c := by
  cases a; cases b; cases c
  simp only [dateLe, dateLt, Date.mk.injEq] at *; omega

theorem dateLt_of_lt_of_le {a b c : Date} (h1 : dateLt a b) (h2 : dateLe b c) :
    dateLt a c := by
  cases a; cases b; cases c
  simp only [dateLe, dateLt, Date.mk.injEq] at *; omega

theorem dateLe_total (a b : Date) : dateLe a b ∨ dateLe b a := by
  cases a; cases b
  simp only [dateLe, dateLt, Date.mk.injEq]; omega

theorem dateLe_antisymm {a b : Date} (h1 : dateLe a b) (h2 : dateLe b a) :
    a = b := by
  cases a; cases b
  simp only [dateLe, dateLt, Date.mk.injEq] at *; omega

theorem not_dateLt_iff {a b : Date} : ¬ dateLt a b ↔ dateLe b a := by
  cases a; cases b
  simp only [dateLe, dateLt, Date.mk.injEq]; omega

theorem not_dateLe_iff {a b : Date} : ¬ dateLe a b ↔ dateLt b a := by
  cases a; cases b
  simp only [dateLe, dateLt, Date.mk.injEq]; omega

theorem daysInMonth_pos (y m : Nat) : 1 ≤ daysInMonth y m := by
  unfold daysInMonth; split_ifs <;> omega

theorem daysInMonth_bounds (y m : Nat) :
    28 ≤ daysInMonth y m ∧ daysInMonth y m ≤ 31 := by
  unfold daysInMonth; split_ifs <;> omega

/-- `dateLt` on explicit components. -/
theorem dateLt_mk {y1 m1 d1 y2 m2 d2 : Nat} :
    dateLt ⟨y1, m1, d1⟩ ⟨y2, m2, d2⟩ ↔
      y1 < y2 ∨ (y1 = y2 ∧ (m1 < m2 ∨ (m1 = m2 ∧ d1 < d2))) := Iff.rfl

/-- `dateLe` on explicit components. -/
theorem dateLe_mk {y1 m1 d1 y2 m2 d2 : Nat} :
    dateLe ⟨y1, m1, d1⟩ ⟨y2, m2, d2⟩ ↔
      (y1 < y2 ∨ (y1 = y2 ∧ (m1 < m2 ∨ (m1 = m2 ∧ d1 < d2)))) ∨
        (y1 = y2 ∧ m1 = m2 ∧ d1 = d2) := by
  unfold dateLe
  rw [dateLt_mk, Date.mk.injEq]

/-- `NormalizedDate` on explicit components. -/
theorem NormalizedDate_mk {y m d : Nat} :
    NormalizedDate ⟨y, m, d⟩ ↔
      1 ≤ y ∧ 1 ≤ m ∧ m ≤ 12 ∧ 1 ≤ d ∧ d ≤ daysInMonth y m := Iff.rfl

/-- `addOneDay` on explicit components. -/
theorem addOneDay_mk {y m d : Nat} :
    addOneDay ⟨y, m, d⟩ =
      if d < daysInMonth y m then ⟨y, m, d + 1⟩
      else if m < 12 then ⟨y, m + 1, 1⟩
      else ⟨y + 1, 1, 1⟩ := rfl

/-- `subOneDay` on explicit components. -/
theorem subOneDay_mk {y m d : Nat} :
    subOneDay ⟨y, m, d⟩ =
      if 1 < d then ⟨y, m, d - 1⟩
      else if 1 < m then ⟨y, m - 1, daysInMonth y (m - 1)⟩
      else ⟨y - 1, 12, 31⟩ := rfl

/-- Tomorrow is strictly later. -/
theorem dateLt_addOneDay (x : Date) : dateLt x (addOneDay x) := by
  obtain ⟨y, m, d⟩ := x
  rw [addOneDay_mk]
  split_ifs <;> rw [dateLt_mk] <;> omega

/-- `addOneDay` preserves well-formedness. -/
theorem addOneDay_normalized {x : Date} (h : NormalizedDate x) :
    NormalizedDate (addOneDay x) := by
  obtain ⟨y, m, d⟩ := x
  rw [NormalizedDate_mk] at h
  rw [addOneDay_mk]
  split_ifs with hd hm
  · rw [NormalizedDate_mk]; omega
  · rw [NormalizedDate_mk]
    have := daysInMonth_pos y (m + 1)
    omega
  · rw [NormalizedDate_mk]
    have := daysInMonth_pos (y + 1) 1
    omega

/-- Discrete covering property: there is no day strictly between `x` and
`addOneDay x`, so anything later than `x` is at least `addOneDay x`. -/
theorem addOneDay_le_of_lt {x z : Date} (hx : NormalizedDate x)
    (hz : NormalizedDate z) (h : dateLt x z) : dateLe (addOneDay x) z := by
  obtain ⟨y, m, d⟩ := x
  obtain ⟨zy, zm, zd⟩ := z
  rw [← not_dateLt_iff]
  rw [NormalizedDate_mk] at hx hz
  rw [dateLt_mk] at h
  rw [addOneDay_mk]
  split_ifs with hd hm
  · rw [dateLt_mk]; omega
  · rw [dateLt_mk]
    intro hcon
    have hzy : zy = y := by omega
    have hzm : zm = m := by omega
    subst hzy; subst hzm
    omega
  · rw [dateLt_mk]
    intro hcon
    have hzy : zy = y := by omega
    have hzm : zm = m := by omega
    subst hzy; subst hzm
    omega

/-- Yesterday is strictly earlier. -/
theorem subOneDay_lt {x : Date} (hx : NormalizedDate x) :
    dateLt (subOneDay x) x := by
  obtain ⟨y, m, d⟩ := x
  rw [NormalizedDate_mk] at hx
  rw [subOneDay_mk]
  split_ifs <;> rw [dateLt_mk] <;> omega

/-- December always has 31 days. -/
theorem daysInMonth_december (y : Nat) : daysInMonth y 12 = 31 := by
  norm_num [daysInMonth]

/-- Tomorrow of yesterday is today. -/
theorem addOneDay_subOneDay {x : Date} (hx : NormalizedDate x) :
    addOneDay (subOneDay x) = x := by
  obtain ⟨y, m, d⟩ := x
  rw [NormalizedDate_mk] at hx
  rw [subOneDay_mk]
  split_ifs with hd hm
  · rw [addOneDay_mk]
    split_ifs with h
    · rw [Date.mk.injEq]; omega
    · omega
    · omega
  · rw [addOneDay_mk]
    split_ifs with h h2
    · omega
    · rw [Date.mk.injEq]; omega
    · have := daysInMonth_pos y (m - 1); omega
  · have hm1 : m = 1 := by omega
    have hd1 : d = 1 := by omega
    subst hm1; subst hd1
    rw [addOneDay_mk, daysInMonth_december]
    split_ifs with h h2
    · omega
    · omega
    · rw [Date.mk.injEq]; omega

/-- `subOneDay` stays well-formed away from the least well-formed date. -/
theorem subOneDay_normalized {x : Date} (hx : NormalizedDate x)
    (hne : x ≠ ⟨1, 1, 1⟩) : NormalizedDate (subOneDay x) := by
  obtain ⟨y, m, d⟩ := x
  rw [NormalizedDate_mk] at hx
  simp only [ne_eq, Date.mk.injEq] at hne
  rw [subOneDay_mk]
  split_ifs with hd hm
  · rw [NormalizedDate_mk]; omega
  · rw [NormalizedDate_mk]
    have := daysInMonth_pos y (m - 1)
    omega
  · rw [NormalizedDate_mk, daysInMonth_december]
    omega

/-- `⟨1,1,1⟩` is the least well-formed date. -/
theorem normalized_min {x : Date} (hx : NormalizedDate x) :
    dateLe ⟨1, 1, 1⟩ x := by
  obtain ⟨y, m, d⟩ := x
  rw [NormalizedDate_mk] at hx
  rw [dateLe_mk]
  omega

/-- Strictly before `z` is the same as no later than the day before `z`. -/
theorem dateLt_iff_le_subOneDay {a z : Date} (ha : NormalizedDate a)
    (hz : NormalizedDate z) : dateLt a z ↔ dateLe a (subOneDay z) := by
  constructor
  · intro h
    have hne : z ≠ ⟨1, 1, 1⟩ := by
      intro hz1
      subst hz1
      exact dateLt_irrefl _ (dateLt_of_le_of_lt (normalized_min ha) h)
    have hpn := subOneDay_normalized hz hne
    by_cases hle : dateLe a (subOneDay z)
    · exact hle
    · have hlt := not_dateLe_iff.mp hle
      have h2 := addOneDay_le_of_lt hpn ha hlt
      rw [addOneDay_subOneDay hz] at h2
      exact absurd (dateLt_of_le_of_lt h2 h) (dateLt_irrefl _)
  · intro h
    exact dateLt_of_le_of_lt h (subOneDay_lt hz)

/-- `clampDate` returns one of three well-formed dates. -/
theorem clampDate_normalized {x lo hi : Date} (hx : NormalizedDate x)
    (hlo : NormalizedDate lo) (hhi : NormalizedDate hi) :
    NormalizedDate (clampDate x lo hi) := by
  unfold clampDate
  split_ifs <;> assumption

/-- Clamping never goes below the lower bound. -/
theorem le_clampDate {x lo hi : Date} (hlohi : dateLe lo hi) :
    dateLe lo (clampDate x lo hi) := by
  unfold clampDate
  split_ifs with h1 h2
  · exact dateLe_refl _
  · exact hlohi
  · exact not_dateLt_iff.mp h1

/-- Clamping never goes above the upper bound. -/
theorem clampDate_le_hi {x lo hi : Date} (hlohi : dateLe lo hi) :
    dateLe (clampDate x lo hi) hi := by
  unfold clampDate
  split_ifs with h1 h2
  · exact hlohi
  · exact dateLe_refl _
  · exact not_dateLt_iff.mp h2

/-- `clampDate` is monotone. -/
theorem clampDate_mono {a b lo hi : Date} (hlohi : dateLe lo hi)
    (hab : dateLe a b) : dateLe (clampDate a lo hi) (clampDate b lo hi) := by
  by_cases c3 : dateLt b lo
  · have ea : clampDate a lo hi = lo := by
      unfold clampDate
      rw [if_pos (dateLt_of_le_of_lt hab c3)]
    have eb : clampDate b lo hi = lo := by
      unfold clampDate
      rw [if_pos c3]
    rw [ea, eb]
    exact dateLe_refl _
  · by_cases c4 : dateLt hi b
    · have eb : clampDate b lo hi = hi := by
        unfold clampDate
        rw [if_neg c3, if_pos c4]
      rw [eb]
      exact clampDate_le_hi hlohi
    · have eb : clampDate b lo hi = b := by
        unfold clampDate
        rw [if_neg c3, if_neg c4]
      rw [eb]
      unfold clampDate
      split_ifs with h1 h2
      · exact not_dateLt_iff.mp c3
      · exact absurd (dateLt_of_lt_of_le h2 hab) c4
      · exact hab

/-- Clamping commutes with the successor up to inequality: the clamp of
tomorrow is at most the day after the clamp. -/
theorem clampDate_addOneDay_le {a lo hi : Date} (ha : NormalizedDate a)
    (hlo : NormalizedDate lo) (hlohi : dateLe lo hi) :
    dateLe (clampDate (addOneDay a) lo hi) (addOneDay (clampDate a lo hi)) := by
  by_cases h1 : dateLt a lo
  · have e1 : clampDate a lo hi = lo := by unfold clampDate; rw [if_pos h1]
    rw [e1]
    have hsucc : dateLe (addOneDay a) lo := addOneDay_le_of_lt ha hlo h1
    have e2 : clampDate (addOneDay a) lo hi = lo := by
      unfold clampDate
      split_ifs with g1 g2
      · rfl
      · exact absurd (dateLt_of_le_of_lt hlohi (dateLt_of_lt_of_le g2 hsucc))
          (dateLt_irrefl _)
      · exact dateLe_antisymm hsucc (not_dateLt_iff.mp g1)
    rw [e2]
    exact dateLe_of_lt (dateLt_addOneDay lo)
  · by_cases h2 : dateLt hi a
    · have e1 : clampDate a lo hi = hi := by
        unfold clampDate; rw [if_neg h1, if_pos h2]
      rw [e1]
      have hlt : dateLt hi (addOneDay a) := dateLt_trans h2 (dateLt_addOneDay a)
      have e2 : clampDate (addOneDay a) lo hi = hi := by
        unfold clampDate
        rw [if_neg, if_pos hlt]
        rw [not_dateLt_iff]
        exact dateLe_trans hlohi (dateLe_of_lt hlt)
      rw [e2]
      exact dateLe_of_lt (dateLt_addOneDay hi)
    · have e1 : clampDate a lo hi = a := by
        unfold clampDate; rw [if_neg h1, if_neg h2]
      rw [e1]
      unfold clampDate
      split_ifs with g1 g2
      · exact absurd
          (dateLt_of_le_of_lt (not_dateLt_iff.mp h1)
            (dateLt_trans (dateLt_addOneDay a) g1))
          (dateLt_irrefl _)
      · exact dateLe_of_lt g2
      · exact dateLe_refl _

/-- Day normalization yields a well-formed date whenever the fuel covers the
day count. -/
theorem normalizeDayAux_normalized :
    ∀ fuel y m d, 1 ≤ y → 1 ≤ m → m ≤ 12 → 1 ≤ d →
      d ≤ fuel + daysInMonth y m → NormalizedDate (normalizeDayAux fuel y m d) := by
  intro fuel
  induction fuel with
  | zero =>
    intro y m d hy hm1 hm2 hd1 hd2
    simp only [normalizeDayAux]
    rw [NormalizedDate_mk]
    omega
  | succ fuel ih =>
    intro y m d hy hm1 hm2 hd1 hd2
    simp only [normalizeDayAux]
    split_ifs with h1 h2
    · subst h2
      rw [daysInMonth_december] at h1 hd2
      refine ih (y + 1) 1 (d - 31) (by omega) (by omega) (by omega) (by omega) ?_
      have := daysInMonth_pos (y + 1) 1
      omega
    · refine ih y (m + 1) (d - daysInMonth y m) hy (by omega) (by omega)
        (by omega) ?_
      have := daysInMonth_pos y (m + 1)
      omega
    · rw [NormalizedDate_mk]
      omega

/-- `normalizeDay` yields a well-formed date. -/
theorem normalizeDay_normalized {y m d : Nat} (hy : 1 ≤ y) (hm1 : 1 ≤ m)
    (hm2 : m ≤ 12) (hd : 1 ≤ d) : NormalizedDate (normalizeDay y m d) := by
  unfold normalizeDay
  exact normalizeDayAux_normalized d y m d hy hm1 hm2 hd (by omega)

/-- Every date built by `Date.UTC` is well-formed. -/
theorem dateUTC_normalized (y m0 d : Nat) : NormalizedDate (dateUTC y m0 d) := by
  have hmod : m0 % 12 < 12 := Nat.mod_lt _ (by norm_num)
  have hyr : 100 ≤ (if y ≤ 99 then 1900 + y else y) := by split_ifs <;> omega
  unfold dateUTC
  by_cases hd : d = 0
  · simp only [if_pos hd]
    by_cases hm1 : m0 % 12 + 1 = 1
    · simp only [if_pos hm1]
      rw [NormalizedDate_mk, daysInMonth_december]
      omega
    · simp only [if_neg hm1]
      rw [NormalizedDate_mk]
      exact ⟨by omega, by omega, by omega, daysInMonth_pos _ _, le_refl _⟩
  · simp only [if_neg hd]
    exact normalizeDay_normalized (by omega) (by omega) (by omega) (by omega)

/-- Everything `parseDate` accepts is a well-formed date. -/
theorem parseDate_normalized {s : String} {x : Date} (h : parseDate s = some x) :
    NormalizedDate x := by
  unfold parseDate at h
  dsimp only at h
  split at h
  · split_ifs at h
    rw [Option.some.injEq] at h
    exact h ▸ dateUTC_normalized _ _ _
  · exact Option.noConfusion h

/-- Coverage by a cons cell splits into head interval or tail coverage. -/
theorem coversD_cons {r : Date × Date} {rs : List (Date × Date)} {x : Date} :
    coversD (r :: rs) x ↔ (dateLe r.1 x ∧ dateLe x r.2) ∨ coversD rs x := by
  unfold coversD
  simp [List.mem_cons, or_and_right, exists_or]

/-- Coverage by an append splits into the two parts. -/
theorem coversD_append {l1 l2 : List (Date × Date)} {x : Date} :
    coversD (l1 ++ l2) x ↔ coversD l1 x ∨ coversD l2 x := by
  unfold coversD
  simp [List.mem_append, or_and_right, exists_or]

/-- The empty list covers nothing. -/
theorem coversD_nil {x : Date} : ¬ coversD [] x := by
  rintro ⟨r, hr, -⟩
  simp at hr

/-- Coverage only depends on the members of the list. -/
theorem coversD_congr {l l' : List (Date × Date)}
    (h : ∀ r, r ∈ l ↔ r ∈ l') {x : Date} : coversD l x ↔ coversD l' x := by
  unfold coversD
  constructor
  · rintro ⟨r, hr, h1, h2⟩
    exact ⟨r, (h r).mp hr, h1, h2⟩
  · rintro ⟨r, hr, h1, h2⟩
    exact ⟨r, (h r).mpr hr, h1, h2⟩

/-- `parsedRanges` distributes over list append. -/
theorem parsedRanges_append (l1 l2 : List Address) (range : DateRange)
    (S E : Date) :
    parsedRanges (l1 ++ l2) range S E =
      parsedRanges l1 range S E ++ parsedRanges l2 range S E :=
  List.filterMap_append l1 l2 _

/-- Evaluating the parse/discard/clamp step on a surviving address. -/
theorem parsedRanges_cons_of_parsed {a : Address} {range : DateRange}
    {S E s e : Date} (hs : parseDate a.startDate = some s)
    (he : parseDate (a.endDate.getD range.stop) = some e)
    (hinv : ¬ dateLt e s) (l : List Address) :
    parsedRanges (a :: l) range S E =
      (clampDate s S E, clampDate e S E) :: parsedRanges l range S E := by
  unfold parsedRanges
  rw [List.filterMap_cons]
  simp only [hs, he, if_neg hinv]

/-- Evaluating the parse/discard/clamp step on a discarded address: an
unparseable start, an unparseable effective end, or an inverted interval
contributes nothing. -/
theorem parsedRanges_cons_of_dropped {a : Address} {range : DateRange}
    {S E : Date}
    (h : parseDate a.startDate = none ∨
      parseDate (a.endDate.getD range.stop) = none ∨
      ∃ s e, parseDate a.startDate = some s ∧
        parseDate (a.endDate.getD range.stop) = some e ∧ dateLt e s)
    (l : List Address) :
    parsedRanges (a :: l) range S E = parsedRanges l range S E := by
  unfold parsedRanges
  rw [List.filterMap_cons]
  rcases h with h | h | ⟨s, e, hs, he, hlt⟩
  · simp only [h]
  · cases hps : parseDate a.startDate <;> simp only [hps, h]
  · simp only [hs, he, if_pos hlt]

/-- Intervals produced by the parse/discard/clamp step are well-formed and
nonempty. -/
theorem mem_parsedRanges {addresses : List Address} {range : DateRange}
    {S E : Date} {r : Date × Date} (hS : NormalizedDate S)
    (hE : NormalizedDate E) (hSE : dateLe S E)
    (hr : r ∈ parsedRanges addresses range S E) :
    NormalizedDate r.1 ∧ NormalizedDate r.2 ∧ dateLe r.1 r.2 := by
  unfold parsedRanges at hr
  rw [List.mem_filterMap] at hr
  obtain ⟨a, -, ha⟩ := hr
  cases hps : parseDate a.startDate with
  | none =>
    simp only [hps] at ha
    exact Option.noConfusion ha
  | some s =>
    cases hpe : parseDate (a.endDate.getD range.stop) with
    | none =>
      simp only [hps, hpe] at ha
      exact Option.noConfusion ha
    | some e =>
      simp only [hps, hpe] at ha
      split_ifs at ha with hinv
      rw [Option.some.injEq] at ha
      have hsn := parseDate_normalized hps
      have hen := parseDate_normalized hpe
      have hle : dateLe s e := not_dateLt_iff.mp hinv
      rw [← ha]
      exact ⟨clampDate_normalized hsn hS hE, clampDate_normalized hen hS hE,
        clampDate_mono hSE hle⟩

/-- Membership in a stable insertion. -/
theorem mem_insertByStart {r x : Date × Date} :
    ∀ {l : List (Date × Date)}, x ∈ insertByStart r l ↔ x = r ∨ x ∈ l := by
  intro l
  induction l with
  | nil => simp [insertByStart]
  | cons a l ih =>
    rw [insertByStart]
    split_ifs with h
    · rw [List.mem_cons, ih, List.mem_cons]
      tauto
    · simp [List.mem_cons]

/-- Sorting preserves membership. -/
theorem mem_sortByStart {x : Date × Date} :
    ∀ {l : List (Date × Date)}, x ∈ sortByStart l ↔ x ∈ l := by
  intro l
  induction l with
  | nil => simp [sortByStart]
  | cons a l ih =>
    rw [sortByStart, mem_insertByStart, ih, List.mem_cons]

/-- Sorting returns the empty list only on the empty list. -/
theorem sortByStart_eq_nil_iff {l : List (Date × Date)} :
    sortByStart l = [] ↔ l = [] := by
  cases l with
  | nil => simp [sortByStart]
  | cons a l =>
    constructor
    · intro h
      have : a ∈ sortByStart (a :: l) := mem_sortByStart.mpr (by simp)
      rw [h] at this
      exact absurd this (by simp)
    · intro h
      exact absurd h (by simp)

/-- Insertion preserves sortedness by start date. -/
theorem insertByStart_sorted {r : Date × Date} {l : List (Date × Date)}
    (h : l.Pairwise (fun a b => dateLe a.1 b.1)) :
    (insertByStart r l).Pairwise (fun a b => dateLe a.1 b.1) := by
  induction l with
  | nil => simp [insertByStart]
  | cons x xs ih =>
    rw [List.pairwise_cons] at h
    rw [insertByStart]
    split_ifs with hx
    · rw [List.pairwise_cons]
      refine ⟨?_, ih h.2⟩
      intro b hb
      rcases mem_insertByStart.mp hb with rfl | hb
      · exact dateLe_of_lt hx
      · exact h.1 b hb
    · rw [List.pairwise_cons]
      refine ⟨?_, List.pairwise_cons.mpr ⟨h.1, h.2⟩⟩
      intro b hb
      rcases List.mem_cons.mp hb with rfl | hb
      · exact not_dateLt_iff.mp hx
      · exact dateLe_trans (not_dateLt_iff.mp hx) (h.1 b hb)

/-- The sort produces a list ordered by start date. -/
theorem sortByStart_sorted (l : List (Date × Date)) :
    (sortByStart l).Pairwise (fun a b => dateLe a.1 b.1) := by
  induction l with
  | nil => simp [sortByStart]
  | cons a l ih => exact insertByStart_sorted ih

/-- Unfolding equation for `mergeRec` on nil. -/
theorem mergeRec_nil (cur : Date × Date) : mergeRec cur [] = [cur] := rfl

/-- Unfolding equation for `mergeRec` on cons. -/
theorem mergeRec_cons (cur r : Date × Date) (rs : List (Date × Date)) :
    mergeRec cur (r :: rs) =
      if dateLe r.1 (addOneDay cur.2) then
        mergeRec (cur.1, if dateLt cur.2 r.2 then r.2 else cur.2) rs
      else cur :: mergeRec r rs := rfl

/-- One step of the merge loop on a nonempty accumulator only inspects and
rewrites the accumulator's last element. -/
theorem mergeStep_concat (acc : List (Date × Date)) (cur r : Date × Date) :
    mergeStep (acc ++ [cur]) r =
      if dateLe r.1 (addOneDay cur.2) then
        (if dateLt cur.2 r.2 then acc ++ [(cur.1, r.2)] else acc ++ [cur])
      else (acc ++ [cur]) ++ [r] := by
  unfold mergeStep
  rw [List.getLast?_concat]
  dsimp only
  rw [List.dropLast_concat]

/-- The source's fold over `mergeStep` agrees with the structural
`mergeRec`. -/
theorem foldl_mergeStep_eq (rs : List (Date × Date)) :
    ∀ (acc : List (Date × Date)) (cur : Date × Date),
      List.foldl mergeStep (acc ++ [cur]) rs = acc ++ mergeRec cur rs := by
  induction rs with
  | nil =>
    intro acc cur
    rw [List.foldl_nil, mergeRec_nil]
  | cons r rs ih =>
    intro acc cur
    rw [List.foldl_cons, mergeStep_concat, mergeRec_cons]
    split_ifs with h1 h2
    · exact ih acc (cur.1, r.2)
    · exact ih acc cur
    · rw [ih (acc ++ [cur]) r, List.append_assoc]
      rfl

/-- The merge loop on a nonempty sorted list is `mergeRec`. -/
theorem mergeRanges_eq_mergeRec (r : Date × Date) (rs : List (Date × Date)) :
    mergeRanges (r :: rs) = mergeRec r rs := by
  unfold mergeRanges
  rw [List.foldl_cons]
  have h0 : mergeStep [] r = [] ++ [r] := rfl
  rw [h0, foldl_mergeStep_eq rs [] r, List.nil_append]

/-- A tail of a separated run decomposition is separated. -/
theorem sepRuns_tail {a : Date × Date} {l : List (Date × Date)}
    (h : SepRuns (a :: l)) : SepRuns l :=
  ⟨h.1.tail, fun r hr => h.2 r (List.mem_cons_of_mem _ hr)⟩

/-- In a separated decomposition, every interval of the tail starts at
least two days after the head's end. -/
theorem sepRuns_head_lb {a : Date × Date} {l : List (Date × Date)}
    (h : SepRuns (a :: l)) : ∀ r ∈ l, dateLt (addOneDay a.2) r.1 := by
  induction l generalizing a with
  | nil =>
    intro r hr
    exact absurd hr (by simp)
  | cons b l ih =>
    intro r hr
    have hab : dateLt (addOneDay a.2) b.1 := (List.chain'_cons.mp h.1).1
    rcases List.mem_cons.mp hr with rfl | hr
    · exact hab
    · have hb := ih (sepRuns_tail h) r hr
      have h1 : dateLe b.1 b.2 := h.2 b (by simp)
      exact dateLt_trans
        (dateLt_of_lt_of_le hab
          (dateLe_trans h1 (dateLe_of_lt (dateLt_addOneDay _)))) hb

/-- Every day covered by a separated decomposition is at least its head's
start. -/
theorem sepRuns_covers_lb {a : Date × Date} {l : List (Date × Date)}
    {x : Date} (h : SepRuns (a :: l)) (hc : coversD (a :: l) x) :
    dateLe a.1 x := by
  rcases coversD_cons.mp hc with ⟨h1, -⟩ | ⟨r, hr, hr1, -⟩
  · exact h1
  · have := sepRuns_head_lb h r hr
    exact dateLe_trans
      (dateLe_trans (h.2 a (by simp))
        (dateLe_of_lt (dateLt_trans (dateLt_addOneDay _) this))) hr1

/-- In a separated decomposition, tail coverage is exactly coverage beyond
the head's end. -/
theorem covers_tail_iff {a : Date × Date} {l : List (Date × Date)} {x : Date}
    (hM : SepRuns (a :: l)) :
    coversD l x ↔ coversD (a :: l) x ∧ dateLt a.2 x := by
  constructor
  · intro hcl
    obtain ⟨r, hr, hr1, hr2⟩ := hcl
    refine ⟨coversD_cons.mpr (Or.inr ⟨r, hr, hr1, hr2⟩), ?_⟩
    exact dateLt_of_lt_of_le
      (dateLt_trans (dateLt_addOneDay _) (sepRuns_head_lb hM r hr)) hr1
  · rintro ⟨hc, hgt⟩
    rcases coversD_cons.mp hc with ⟨-, hup⟩ | h
    · exact absurd (dateLt_of_le_of_lt hup hgt) (dateLt_irrefl _)
    · exact h

/-- Merging one incoming interval into the current run preserves the
covered set, pointwise on well-formed days. -/
theorem interval_merge_pointwise {cur r : Date × Date} {e2 x : Date}
    (hstart : dateLe cur.1 r.1) (hadj : dateLe r.1 (addOneDay cur.2))
    (hn2 : NormalizedDate cur.2) (hx : NormalizedDate x)
    (he : (dateLt cur.2 r.2 ∧ e2 = r.2) ∨ (¬ dateLt cur.2 r.2 ∧ e2 = cur.2)) :
    (dateLe cur.1 x ∧ dateLe x e2) ↔
      (dateLe cur.1 x ∧ dateLe x cur.2) ∨ (dateLe r.1 x ∧ dateLe x r.2) := by
  rcases he with ⟨hmax, rfl⟩ | ⟨hmax, rfl⟩
  · constructor
    · rintro ⟨h1, h2⟩
      by_cases hc : dateLe x cur.2
      · exact Or.inl ⟨h1, hc⟩
      · have hgt := not_dateLe_iff.mp hc
        have hsucc := addOneDay_le_of_lt hn2 hx hgt
        exact Or.inr ⟨dateLe_trans hadj hsucc, h2⟩
    · rintro (⟨h1, h2⟩ | ⟨h1, h2⟩)
      · exact ⟨h1, dateLe_trans h2 (dateLe_of_lt hmax)⟩
      · exact ⟨dateLe_trans hstart h1, h2⟩
  · constructor
    · rintro ⟨h1, h2⟩
      exact Or.inl ⟨h1, h2⟩
    · rintro (⟨h1, h2⟩ | ⟨h1, h2⟩)
      · exact ⟨h1, h2⟩
      · exact ⟨dateLe_trans hstart h1,
          dateLe_trans h2 (not_dateLt_iff.mp hmax)⟩

/-- Invariant of the merge loop: starting from a well-formed current run
and a sorted list of well-formed intervals no earlier than it, `mergeRec`
produces a separated decomposition with the same covered set, headed by the
current run's start. -/
theorem mergeRec_spec :
    ∀ (rs : List (Date × Date)) (cur : Date × Date),
      dateLe cur.1 cur.2 → NormalizedDate cur.1 → NormalizedDate cur.2 →
      (∀ r ∈ rs, dateLe r.1 r.2 ∧ NormalizedDate r.1 ∧ NormalizedDate r.2) →
      rs.Pairwise (fun a b => dateLe a.1 b.1) →
      (∀ r ∈ rs, dateLe cur.1 r.1) →
      SepRuns (mergeRec cur rs) ∧
        (∀ r ∈ mergeRec cur rs, NormalizedDate r.1 ∧ NormalizedDate r.2) ∧
        (∃ e tl, mergeRec cur rs = (cur.1, e) :: tl) ∧
        (∀ x, NormalizedDate x →
          (coversD (mergeRec cur rs) x ↔
            (dateLe cur.1 x ∧ dateLe x cur.2) ∨ coversD rs x)) := by
  intro rs
  induction rs with
  | nil =>
    intro cur hc hn1 hn2 _ _ _
    rw [mergeRec_nil]
    refine ⟨⟨List.chain'_singleton _, ?_⟩, ?_, ⟨cur.2, [], rfl⟩, ?_⟩
    · intro r hr
      rw [List.mem_singleton] at hr
      rw [hr]
      exact hc
    · intro r hr
      rw [List.mem_singleton] at hr
      rw [hr]
      exact ⟨hn1, hn2⟩
    · intro x hx
      rw [coversD_cons]
  | cons r rs ih =>
    intro cur hc hn1 hn2 hall hsorted hcurle
    rw [mergeRec_cons]
    have hrfacts := hall r (by simp)
    have hrle := hcurle r (by simp)
    rw [List.pairwise_cons] at hsorted
    have htail : ∀ q ∈ rs, dateLe q.1 q.2 ∧ NormalizedDate q.1 ∧
        NormalizedDate q.2 := fun q hq => hall q (by simp [hq])
    split_ifs with h1 hmax
    · -- extend the current run, new end r.2
      obtain ⟨hsep, hnorm, hhead, hcov⟩ :=
        ih (cur.1, r.2) (dateLe_trans hrle hrfacts.1) hn1 hrfacts.2.2
          htail hsorted.2
          (fun q hq => dateLe_trans hrle (hsorted.1 q hq))
      refine ⟨hsep, hnorm, hhead, ?_⟩
      intro x hx
      rw [hcov x hx, coversD_cons]
      rw [interval_merge_pointwise hrle h1 hn2 hx (Or.inl ⟨hmax, rfl⟩)]
      tauto
    · -- extend the current run, end unchanged
      obtain ⟨hsep, hnorm, hhead, hcov⟩ :=
        ih (cur.1, cur.2) hc hn1 hn2 htail hsorted.2
          (fun q hq => dateLe_trans hrle (hsorted.1 q hq))
      refine ⟨hsep, hnorm, hhead, ?_⟩
      intro x hx
      rw [hcov x hx, coversD_cons]
      rw [interval_merge_pointwise hrle h1 hn2 hx (Or.inr ⟨hmax, rfl⟩)]
      tauto
    · -- open a new run
      have hadj := not_dateLe_iff.mp h1
      obtain ⟨hsep, hnorm, ⟨e2, tl2, hhead⟩, hcov⟩ :=
        ih r hrfacts.1 hrfacts.2.1 hrfacts.2.2 htail hsorted.2 hsorted.1
      refine ⟨?_, ?_, ⟨cur.2, mergeRec r rs, rfl⟩, ?_⟩
      · constructor
        · rw [hhead, List.chain'_cons]
          exact ⟨hadj, hhead ▸ hsep.1⟩
        · intro q hq
          rcases List.mem_cons.mp hq with rfl | hq
          · exact hc
          · exact hsep.2 q hq
      · intro q hq
        rcases List.mem_cons.mp hq with rfl | hq
        · exact ⟨hn1, hn2⟩
        · exact hnorm q hq
      · intro x hx
        rw [coversD_cons, hcov x hx, coversD_cons]

/-- In two separated decompositions with the same covered set and equal
head starts, the first head ends no later than the second. -/
theorem sepRuns_end_le {p q : Date × Date} {tl tl2 : List (Date × Date)}
    (hp : SepRuns (p :: tl)) (hq : SepRuns (q :: tl2))
    (hnp : ∀ r ∈ p :: tl, NormalizedDate r.1 ∧ NormalizedDate r.2)
    (hnq : ∀ r ∈ q :: tl2, NormalizedDate r.1 ∧ NormalizedDate r.2)
    (hstart : p.1 = q.1)
    (hcov : ∀ x, NormalizedDate x →
      (coversD (p :: tl) x → coversD (q :: tl2) x)) :
    dateLe p.2 q.2 := by
  have hc : coversD (q :: tl2) p.2 :=
    hcov p.2 (hnp p (by simp)).2
      (coversD_cons.mpr (Or.inl ⟨hp.2 p (by simp), dateLe_refl _⟩))
  rcases coversD_cons.mp hc with ⟨-, h2⟩ | ⟨r, hr, hr1, -⟩
  · exact h2
  · exfalso
    have hlb := sepRuns_head_lb hq r hr
    have hnq2 : NormalizedDate q.2 := (hnq q (by simp)).2
    have hx : NormalizedDate (addOneDay q.2) := addOneDay_normalized hnq2
    have hcp : coversD (p :: tl) (addOneDay q.2) := by
      apply coversD_cons.mpr
      left
      constructor
      · rw [hstart]
        exact dateLe_trans (hq.2 q (by simp))
          (dateLe_of_lt (dateLt_addOneDay _))
      · exact dateLe_trans (dateLe_of_lt hlb) hr1
    have hcq := hcov _ hx hcp
    rcases coversD_cons.mp hcq with ⟨-, hup⟩ | ⟨u, hu, hu1, -⟩
    · exact dateLt_irrefl _ (dateLt_of_lt_of_le (dateLt_addOneDay q.2) hup)
    · exact dateLt_irrefl _ (dateLt_of_lt_of_le (sepRuns_head_lb hq u hu) hu1)

/-- A separated decomposition is determined by its covered set: two
separated, well-formed decompositions covering the same days are equal. -/
theorem sepRuns_unique :
    ∀ (M M2 : List (Date × Date)), SepRuns M → SepRuns M2 →
      (∀ r ∈ M, NormalizedDate r.1 ∧ NormalizedDate r.2) →
      (∀ r ∈ M2, NormalizedDate r.1 ∧ NormalizedDate r.2) →
      (∀ x, NormalizedDate x → (coversD M x ↔ coversD M2 x)) → M = M2 := by
  intro M
  induction M with
  | nil =>
    intro M2 _ hM2 _ hnorm2 hcov
    cases M2 with
    | nil => rfl
    | cons b l =>
      exfalso
      have hb : coversD (b :: l) b.1 :=
        coversD_cons.mpr (Or.inl ⟨dateLe_refl _, hM2.2 b (by simp)⟩)
      exact coversD_nil ((hcov b.1 (hnorm2 b (by simp)).1).mpr hb)
  | cons a l ih =>
    intro M2 hM hM2 hnorm hnorm2 hcov
    cases M2 with
    | nil =>
      exfalso
      have ha : coversD (a :: l) a.1 :=
        coversD_cons.mpr (Or.inl ⟨dateLe_refl _, hM.2 a (by simp)⟩)
      exact coversD_nil ((hcov a.1 (hnorm a (by simp)).1).mp ha)
    | cons b l2 =>
      have hs : a.1 = b.1 := by
        have h1 : dateLe b.1 a.1 :=
          sepRuns_covers_lb hM2
            ((hcov a.1 (hnorm a (by simp)).1).mp
              (coversD_cons.mpr (Or.inl ⟨dateLe_refl _, hM.2 a (by simp)⟩)))
        have h2 : dateLe a.1 b.1 :=
          sepRuns_covers_lb hM
            ((hcov b.1 (hnorm2 b (by simp)).1).mpr
              (coversD_cons.mpr (Or.inl ⟨dateLe_refl _, hM2.2 b (by simp)⟩)))
        exact dateLe_antisymm h2 h1
      have he : a.2 = b.2 :=
        dateLe_antisymm
          (sepRuns_end_le hM hM2 hnorm hnorm2 hs
            (fun x hx => (hcov x hx).mp))
          (sepRuns_end_le hM2 hM hnorm2 hnorm hs.symm
            (fun x hx => (hcov x hx).mpr))
      have htl : l = l2 := by
        apply ih l2 (sepRuns_tail hM) (sepRuns_tail hM2)
          (fun r hr => hnorm r (List.mem_cons_of_mem _ hr))
          (fun r hr => hnorm2 r (List.mem_cons_of_mem _ hr))
        intro x hx
        rw [covers_tail_iff hM, covers_tail_iff hM2, hcov x hx, he]
      rw [htl]
      have hab : a = b := Prod.ext hs he
      rw [hab]

/-- Convenience: coverage is unchanged by sorting. -/
theorem coversD_sortByStart {l : List (Date × Date)} {x : Date} :
    coversD (sortByStart l) x ↔ coversD l x :=
  coversD_congr (fun _ => mem_sortByStart)

/-- The gap engine only depends on the survivor test and the covered set:
two address lists whose parse/discard/clamp steps agree on emptiness and
cover the same days produce identical gap reports. -/
theorem gaps_eq_of_same_coverage {a1 a2 : List Address} {range : DateRange}
    (h : ∀ S E, parseDate range.start = some S →
      parseDate range.stop = some E → dateLe S E →
      ((parsedRanges a1 range S E = [] ↔ parsedRanges a2 range S E = []) ∧
        ∀ x, NormalizedDate x →
          (coversD (parsedRanges a1 range S E) x ↔
            coversD (parsedRanges a2 range S E) x))) :
    getCoverageGaps a1 range = getCoverageGaps a2 range := by
  unfold getCoverageGaps
  cases hS : parseDate range.start with
  | none => rfl
  | some S =>
    cases hE : parseDate range.stop with
    | none => rfl
    | some E =>
      dsimp only
      by_cases hlt : dateLt E S
      · rw [if_pos hlt, if_pos hlt]
      · rw [if_neg hlt, if_neg hlt]
        have hSE := not_dateLt_iff.mp hlt
        obtain ⟨hiff, hcov⟩ := h S E hS hE hSE
        have hnS := parseDate_normalized hS
        have hnE := parseDate_normalized hE
        cases hL1 : sortByStart (parsedRanges a1 range S E) with
        | nil =>
          cases hL2 : sortByStart (parsedRanges a2 range S E) with
          | nil => rfl
          | cons r2 rs2 =>
            exfalso
            have h2 := hiff.mp (sortByStart_eq_nil_iff.mp hL1)
            rw [h2] at hL2
            simp [sortByStart] at hL2
        | cons r1 rs1 =>
          cases hL2 : sortByStart (parsedRanges a2 range S E) with
          | nil =>
            exfalso
            have h1 := hiff.mpr (sortByStart_eq_nil_iff.mp hL2)
            rw [h1] at hL1
            simp [sortByStart] at hL1
          | cons r2 rs2 =>
            have hmem1 : ∀ q ∈ r1 :: rs1, dateLe q.1 q.2 ∧
                NormalizedDate q.1 ∧ NormalizedDate q.2 := by
              intro q hq
              have hq2 : q ∈ parsedRanges a1 range S E := by
                have hmm := @mem_sortByStart q (parsedRanges a1 range S E)
                rw [hL1] at hmm
                exact hmm.mp hq
              obtain ⟨hx1, hx2, hx3⟩ := mem_parsedRanges hnS hnE hSE hq2
              exact ⟨hx3, hx1, hx2⟩
            have hmem2 : ∀ q ∈ r2 :: rs2, dateLe q.1 q.2 ∧
                NormalizedDate q.1 ∧ NormalizedDate q.2 := by
              intro q hq
              have hq2 : q ∈ parsedRanges a2 range S E := by
                have hmm := @mem_sortByStart q (parsedRanges a2 range S E)
                rw [hL2] at hmm
                exact hmm.mp hq
              obtain ⟨hx1, hx2, hx3⟩ := mem_parsedRanges hnS hnE hSE hq2
              exact ⟨hx3, hx1, hx2⟩
            have hsorted1 := sortByStart_sorted (parsedRanges a1 range S E)
            have hsorted2 := sortByStart_sorted (parsedRanges a2 range S E)
            rw [hL1, List.pairwise_cons] at hsorted1
            rw [hL2, List.pairwise_cons] at hsorted2
            obtain ⟨hsep1, hnorm1, -, hcov1⟩ :=
              mergeRec_spec rs1 r1 (hmem1 r1 (by simp)).1
                (hmem1 r1 (by simp)).2.1 (hmem1 r1 (by simp)).2.2
                (fun q hq => hmem1 q (by simp [hq])) hsorted1.2 hsorted1.1
            obtain ⟨hsep2, hnorm2, -, hcov2⟩ :=
              mergeRec_spec rs2 r2 (hmem2 r2 (by simp)).1
                (hmem2 r2 (by simp)).2.1 (hmem2 r2 (by simp)).2.2
                (fun q hq => hmem2 q (by simp [hq])) hsorted2.2 hsorted2.1
            have key : mergeRec r1 rs1 = mergeRec r2 rs2 := by
              apply sepRuns_unique _ _ hsep1 hsep2 hnorm1 hnorm2
              intro x hx
              rw [hcov1 x hx, hcov2 x hx]
              have e1 : ((dateLe r1.1 x ∧ dateLe x r1.2) ∨ coversD rs1 x) ↔
                  coversD (parsedRanges a1 range S E) x := by
                rw [← coversD_cons, ← hL1]
                exact coversD_sortByStart
              have e2 : ((dateLe r2.1 x ∧ dateLe x r2.2) ∨ coversD rs2 x) ↔
                  coversD (parsedRanges a2 range S E) x := by
                rw [← coversD_cons, ← hL2]
                exact coversD_sortByStart
              rw [e1, e2]
              exact hcov x hx
            rw [mergeRanges_eq_mergeRec, mergeRanges_eq_mergeRec, key]

/-- Evaluation of the gap engine once the query range parses in order. -/
theorem getCoverageGaps_parsed {addresses : List Address} {range : DateRange}
    {S E : Date} (hS : parseDate range.start = some S)
    (hE : parseDate range.stop = some E) (hlt : ¬ dateLt E S) :
    getCoverageGaps addresses range =
      match sortByStart (parsedRanges addresses range S E) with
      | [] => [⟨range.start, range.stop, true, true⟩]
      | r :: rs => gapsFromMerged (mergeRanges (r :: rs)) S E := by
  unfold getCoverageGaps
  rw [hS, hE]
  dsimp only
  rw [if_neg hlt]
  cases sortByStart (parsedRanges addresses range S E) with
  | nil => rfl
  | cons r rs => rfl

/-- Splitting one covered interval at an interior day into two adjacent
pieces leaves the clamped covered set unchanged, pointwise. -/
theorem split_coverage_pointwise {s e d S E x : Date}
    (hd : NormalizedDate d) (hS : NormalizedDate S) (hE : NormalizedDate E)
    (hx : NormalizedDate x) (hSE : dateLe S E)
    (hsd : dateLe s d) (hde : dateLt d e) :
    ((dateLe (clampDate s S E) x ∧ dateLe x (clampDate d S E)) ∨
      (dateLe (clampDate (addOneDay d) S E) x ∧ dateLe x (clampDate e S E))) ↔
      (dateLe (clampDate s S E) x ∧ dateLe x (clampDate e S E)) := by
  have hclnd : NormalizedDate (clampDate d S E) := clampDate_normalized hd hS hE
  constructor
  · rintro (⟨h1, h2⟩ | ⟨h1, h2⟩)
    · exact ⟨h1, dateLe_trans h2 (clampDate_mono hSE (dateLe_of_lt hde))⟩
    · refine ⟨?_, h2⟩
      have hs1 : dateLe s (addOneDay d) :=
        dateLe_trans hsd (dateLe_of_lt (dateLt_addOneDay d))
      exact dateLe_trans (clampDate_mono hSE hs1) h1
  · rintro ⟨h1, h2⟩
    by_cases hc : dateLe x (clampDate d S E)
    · exact Or.inl ⟨h1, hc⟩
    · have hgt := not_dateLe_iff.mp hc
      have hsucc := addOneDay_le_of_lt hclnd hx hgt
      have hkey := clampDate_addOneDay_le hd hS hSE
      exact Or.inr ⟨dateLe_trans hkey hsucc, h2⟩

/-- C4: an address whose startDate or effective endDate fails to parse, or
whose effective end precedes its start, is silently discarded by
`computeCoverageGaps`: it contributes no coverage and the result is exactly
the result for the remaining addresses; no failure is raised. -/
theorem getCoverageGaps_discards_malformed (pre post : List Address)
    (a : Address) (range : DateRange)
    (hbad : parseDate a.startDate = none ∨
      parseDate (a.endDate.getD range.stop) = none ∨
      ∃ s e, parseDate a.startDate = some s ∧
        parseDate (a.endDate.getD range.stop) = some e ∧ dateLt e s) :
    getCoverageGaps (pre ++ a :: post) range =
      getCoverageGaps (pre ++ post) range := by
  apply gaps_eq_of_same_coverage
  intro S E hS hE hSE
  have heq : parsedRanges (pre ++ a :: post) range S E =
      parsedRanges (pre ++ post) range S E := by
    rw [parsedRanges_append, parsedRanges_append,
      parsedRanges_cons_of_dropped hbad]
  rw [heq]
  exact ⟨Iff.rfl, fun x hx => Iff.rfl⟩

/-- C3: replacing a single parsed interval with effective end `e` by the
two adjacent intervals ending at an interior day `d` and restarting at
`d + 1` leaves the output of `computeCoverageGaps` unchanged, wherever the
interval sits in the address list. -/
theorem getCoverageGaps_split_invariant (pre post : List Address)
    (a : Address) (range : DateRange) (sD sD1 : String) (s e d : Date)
    (hs : parseDate a.startDate = some s)
    (he : parseDate (a.endDate.getD range.stop) = some e)
    (hD : parseDate sD = some d)
    (hD1 : parseDate sD1 = some (addOneDay d))
    (hsd : dateLe s d) (hde : dateLt d e) :
    getCoverageGaps (pre ++ a :: post) range =
      getCoverageGaps
        (pre ++ { a with endDate := some sD } ::
          { a with startDate := sD1 } :: post) range := by
  apply gaps_eq_of_same_coverage
  intro S E hS hE hSE
  have hnd := parseDate_normalized hD
  have hne := parseDate_normalized he
  have hnS := parseDate_normalized hS
  have hnE := parseDate_normalized hE
  have hse : dateLe s e := dateLe_trans hsd (dateLe_of_lt hde)
  have hs1 : parseDate ({ a with endDate := some sD } : Address).startDate =
      some s := hs
  have he1 : parseDate
      (({ a with endDate := some sD } : Address).endDate.getD range.stop) =
      some d := hD
  have hs2 : parseDate ({ a with startDate := sD1 } : Address).startDate =
      some (addOneDay d) := hD1
  have he2 : parseDate
      (({ a with startDate := sD1 } : Address).endDate.getD range.stop) =
      some e := he
  have hinv : ¬ dateLt e s := not_dateLt_iff.mpr hse
  have hinv1 : ¬ dateLt d s := not_dateLt_iff.mpr hsd
  have hsucc_le : dateLe (addOneDay d) e := addOneDay_le_of_lt hnd hne hde
  have hinv2 : ¬ dateLt e (addOneDay d) := not_dateLt_iff.mpr hsucc_le
  rw [parsedRanges_append, parsedRanges_append,
    parsedRanges_cons_of_parsed hs he hinv,
    parsedRanges_cons_of_parsed hs1 he1 hinv1,
    parsedRanges_cons_of_parsed hs2 he2 hinv2]
  constructor
  · constructor <;> intro hh <;> simp at hh
  · intro x hx
    rw [coversD_append, coversD_append, coversD_cons, coversD_cons,
      coversD_cons]
    dsimp only
    rw [← split_coverage_pointwise hnd hnS hnE hx hSE hsd hde]
    tauto

/-- C2: when no address interval survives the parse/discard/clamp step (in
particular for the empty address list), the whole query range is reported
as a single gap flagged as both leading and trailing. -/
theorem getCoverageGaps_no_survivors (addresses : List Address)
    (range : DateRange) (S E : Date) (hS : parseDate range.start = some S)
    (hE : parseDate range.stop = some E) (hSE : dateLe S E)
    (hnone : parsedRanges addresses range S E = []) :
    getCoverageGaps addresses range =
        [⟨range.start, range.stop, true, true⟩] ∧
      getCoverageGaps ([] : List Address) range =
        [⟨range.start, range.stop, true, true⟩] := by
  constructor
  · rw [getCoverageGaps_parsed hS hE (not_dateLt_iff.mpr hSE), hnone]
    rfl
  · rw [@getCoverageGaps_parsed ([] : List Address) range S E hS hE
      (not_dateLt_iff.mpr hSE)]
    rfl

/-- C10: a malformed query range, whether unparseable at either end or
with its parsed end before its parsed start, makes `computeCoverageGaps`
return the empty list: no error and no gap. -/
theorem getCoverageGaps_malformed_range (addresses : List Address)
    (range : DateRange)
    (hbad : parseDate range.start = none ∨ parseDate range.stop = none ∨
      ∃ S E, parseDate range.start = some S ∧ parseDate range.stop = some E ∧
        dateLt E S) :
    getCoverageGaps addresses range = [] := by
  unfold getCoverageGaps
  rcases hbad with h | h | ⟨S, E, hS, hE, hlt⟩
  · rw [h]
  · cases hS2 : parseDate range.start with
    | none => rfl
    | some S => rw [h]
  · rw [hS, hE]
    dsimp only
    rw [if_pos hlt]

/-- Recursion equation for the spec-side internal-gap list. -/
theorem internalGapsSpec_cons2 (a b : Date × Date)
    (rest : List (Date × Date)) :
    internalGapsSpec (a :: b :: rest) =
      (if dateLe (addOneDay a.2) (subOneDay b.1) then
        [⟨formatDate (addOneDay a.2), formatDate (subOneDay b.1),
          false, false⟩]
       else []) ++ internalGapsSpec (b :: rest) := by
  unfold internalGapsSpec
  rw [List.tail_cons, List.tail_cons, List.zip_cons_cons, List.filterMap_cons]
  split_ifs with hc <;> rfl

/-- The engine's internal-gap loop computes the specification's pairwise
internal gaps. -/
theorem internalGapsList_eq_spec (l : List (Date × Date)) :
    internalGapsList l = internalGapsSpec l := by
  induction l with
  | nil => rfl
  | cons a tail ih =>
    cases tail with
    | nil => rfl
    | cons b rest =>
      have lhs : internalGapsList (a :: b :: rest) =
          (if dateLe (addOneDay a.2) (subOneDay b.1) then
            [⟨formatDate (addOneDay a.2), formatDate (subOneDay b.1),
              false, false⟩]
           else []) ++ internalGapsList (b :: rest) := rfl
      rw [lhs, ih, internalGapsSpec_cons2]

/-- Every gap emitted by the internal-gap loop carries both flags false. -/
theorem internalGapsList_flags :
    ∀ (l : List (Date × Date)) (g : Gap), g ∈ internalGapsList l →
      g.isLeading = false ∧ g.isTrailing = false := by
  intro l
  induction l with
  | nil =>
    intro g hg
    exact absurd hg (by simp [internalGapsList])
  | cons a tail ih =>
    cases tail with
    | nil =>
      intro g hg
      exact absurd hg (by simp [internalGapsList])
    | cons b rest =>
      intro g hg
      have lhs : internalGapsList (a :: b :: rest) =
          (if dateLe (addOneDay a.2) (subOneDay b.1) then
            [⟨formatDate (addOneDay a.2), formatDate (subOneDay b.1),
              false, false⟩]
           else []) ++ internalGapsList (b :: rest) := rfl
      rw [lhs] at hg
      rcases List.mem_append.mp hg with hg | hg
      · split_ifs at hg
        · rw [List.mem_singleton] at hg
          rw [hg]
          exact ⟨rfl, rfl⟩
        · exact absurd hg (by simp)
      · exact ih g hg

/-- Filtering the engine's output for flag-free gaps yields exactly the
internal-gap loop's output. -/
theorem filter_gapsFromMerged (merged : List (Date × Date)) (S E : Date) :
    (gapsFromMerged merged S E).filter
        (fun g => !g.isLeading && !g.isTrailing) =
      internalGapsList merged := by
  cases merged with
  | nil => rfl
  | cons first tl =>
    unfold gapsFromMerged
    rw [List.filter_append, List.filter_append]
    have h1 : (if dateLt S first.1 then
          [(⟨formatDate S, formatDate (subOneDay first.1), true, false⟩ : Gap)]
        else []).filter (fun g => !g.isLeading && !g.isTrailing) = [] := by
      split_ifs <;> rfl
    have h2 : (internalGapsList (first :: tl)).filter
        (fun g => !g.isLeading && !g.isTrailing) =
        internalGapsList (first :: tl) := by
      rw [List.filter_eq_self]
      intro g hg
      obtain ⟨hl, ht⟩ := internalGapsList_flags _ g hg
      rw [hl, ht]
      rfl
    have h3 : (match (first :: tl).getLast? with
        | some lastRun =>
          if dateLt lastRun.2 E then
            [(⟨formatDate (addOneDay lastRun.2), formatDate E,
              false, true⟩ : Gap)]
          else []
        | none => ([] : List Gap)).filter
          (fun (g : Gap) => !g.isLeading && !g.isTrailing) = [] := by
      cases (first :: tl).getLast? with
      | none => rfl
      | some lastRun =>
        dsimp only
        split_ifs <;> rfl
    rw [h1, h2, h3, List.nil_append, List.append_nil]

/-- C1: for a parseable, ordered query range, the flag-free gaps in the
engine's output are exactly the specification's internal gaps between
consecutive merged runs (start one day after the previous run's end, end
one day before the next run's start, kept only when nonempty); in
particular, two surviving intervals in sorted order separated by a hole of
at least one day yield exactly one such internal gap. -/
theorem getCoverageGaps_internal_gaps (addresses : List Address)
    (range : DateRange) (S E : Date) (hS : parseDate range.start = some S)
    (hE : parseDate range.stop = some E) (hSE : dateLe S E) :
    ((getCoverageGaps addresses range).filter
        (fun g => !g.isLeading && !g.isTrailing) =
      internalGapsSpec
        (mergeRanges (sortByStart (parsedRanges addresses range S E)))) ∧
    (∀ s1 e1 s2 e2,
      sortByStart (parsedRanges addresses range S E) = [(s1, e1), (s2, e2)] →
      dateLt (addOneDay e1) s2 →
      (getCoverageGaps addresses range).filter
          (fun g => !g.isLeading && !g.isTrailing) =
        [⟨formatDate (addOneDay e1), formatDate (subOneDay s2),
          false, false⟩]) := by
  have main : (getCoverageGaps addresses range).filter
      (fun g => !g.isLeading && !g.isTrailing) =
      internalGapsSpec
        (mergeRanges (sortByStart (parsedRanges addresses range S E))) := by
    rw [getCoverageGaps_parsed hS hE (not_dateLt_iff.mpr hSE)]
    cases hL : sortByStart (parsedRanges addresses range S E) with
    | nil => rfl
    | cons r rs =>
      rw [filter_gapsFromMerged, internalGapsList_eq_spec]
  refine ⟨main, ?_⟩
  intro s1 e1 s2 e2 hL hhole
  rw [main, hL]
  have hmem2 : ((s2, e2) : Date × Date) ∈
      sortByStart (parsedRanges addresses range S E) := by
    rw [hL]; simp
  have hmem1 : ((s1, e1) : Date × Date) ∈
      sortByStart (parsedRanges addresses range S E) := by
    rw [hL]; simp
  have hnS := parseDate_normalized hS
  have hnE := parseDate_normalized hE
  obtain ⟨hn1s, hn1e, -⟩ := mem_parsedRanges hnS hnE hSE
    (mem_sortByStart.mp hmem1)
  obtain ⟨hn2s, -, -⟩ := mem_parsedRanges hnS hnE hSE
    (mem_sortByStart.mp hmem2)
  have hmerge : mergeRanges [((s1, e1) : Date × Date), (s2, e2)] =
      [(s1, e1), (s2, e2)] := by
    rw [mergeRanges_eq_mergeRec, mergeRec_cons]
    rw [if_neg (not_dateLe_iff.mpr hhole)]
    rfl
  rw [hmerge, internalGapsSpec_cons2]
  have hcond : dateLe (addOneDay e1) (subOneDay s2) := by
    rw [← dateLt_iff_le_subOneDay (addOneDay_normalized hn1e) hn2s]
    exact hhole
  rw [if_pos hcond]
  rfl

/-- `findIdx?` on a list whose members all fail the predicate. -/
theorem findIdx?_none_of_all {p : Address → Bool} :
    ∀ (l : List Address) (i : Nat), (∀ q ∈ l, p q = false) →
      l.findIdx? p i = none := by
  intro l
  induction l with
  | nil => intro i _; rfl
  | cons a l ih =>
    intro i h
    rw [List.findIdx?_cons, if_neg (by simp [h a (by simp)])]
    exact ih _ (fun q hq => h q (by simp [hq]))

/-- `findIdx?` over a prefix of non-matches lands on the first match, for
any accumulator. -/
theorem findIdx?_skip_front {p : Address → Bool} :
    ∀ (pre : List Address) (x : Address) (post : List Address) (i : Nat),
      (∀ q ∈ pre, p q = false) → p x = true →
      (pre ++ x :: post).findIdx? p i = some (i + pre.length) := by
  intro pre
  induction pre with
  | nil =>
    intro x post i _ hx
    rw [List.nil_append, List.findIdx?_cons, if_pos hx]
    simp
  | cons a pre ih =>
    intro x post i h hx
    rw [List.cons_append, List.findIdx?_cons, if_neg (by simp [h a (by simp)])]
    rw [ih x post (i + 1) (fun q hq => h q (by simp [hq])) hx]
    rw [Option.some.injEq, List.length_cons]
    omega

/-- C6: updating a nonexistent id returns NotFound and leaves the snapshot
unchanged; updating a present id rewrites exactly that record with the
supplied fields plus a fresh `updatedAt`, keeping `id`, `createdAt`, every
unsupplied field, every other address and the documents collection
unchanged. -/
theorem updateAddress_contract (id : String) (u : AddressUpdates)
    (now : String) (store : Store) :
    ((∀ a ∈ store.addresses, a.id ≠ id) →
      updateAddress id u now store = (none, store)) ∧
    (∀ pre existing post, store.addresses = pre ++ existing :: post →
      (∀ p ∈ pre, p.id ≠ id) → existing.id = id →
      updateAddress id u now store =
        (some (applyUpdates existing u now),
          ⟨pre ++ applyUpdates existing u now :: post, store.documents⟩) ∧
      (applyUpdates existing u now).id = existing.id ∧
      (applyUpdates existing u now).createdAt = existing.createdAt ∧
      (applyUpdates existing u now).updatedAt = now ∧
      (u.line1 = none → (applyUpdates existing u now).line1 = existing.line1) ∧
      (u.line2 = none → (applyUpdates existing u now).line2 = existing.line2) ∧
      (u.town = none → (applyUpdates existing u now).town = existing.town) ∧
      (u.county = none →
        (applyUpdates existing u now).county = existing.county) ∧
      (u.postcode = none →
        (applyUpdates existing u now).postcode = existing.postcode) ∧
      (u.country = none →
        (applyUpdates existing u now).country = existing.country) ∧
      (u.startDate = none →
        (applyUpdates existing u now).startDate = existing.startDate) ∧
      (u.endDate = none →
        (applyUpdates existing u now).endDate = existing.endDate)) := by
  constructor
  · intro h
    unfold updateAddress
    rw [findIdx?_none_of_all store.addresses 0
      (fun q hq => by simp [h q hq])]
  · intro pre existing post haddr hpre hex
    obtain ⟨addrs, docs⟩ := store
    subst haddr
    refine ⟨?_, rfl, rfl, rfl, fun h => by simp [applyUpdates, h],
      fun h => by simp [applyUpdates, h], fun h => by simp [applyUpdates, h],
      fun h => by simp [applyUpdates, h], fun h => by simp [applyUpdates, h],
      fun h => by simp [applyUpdates, h], fun h => by simp [applyUpdates, h],
      fun h => by simp [applyUpdates, h]⟩
    unfold updateAddress
    rw [show ((⟨pre ++ existing :: post, docs⟩ : Store)).addresses =
      pre ++ existing :: post from rfl]
    rw [findIdx?_skip_front pre existing post 0
      (fun q hq => by simp [hpre q hq]) (by simp [hex])]
    try dsimp only
    rw [Nat.zero_add, List.getElem?_append_right (le_refl pre.length),
      Nat.sub_self, List.getElem?_cons_zero]
    try dsimp only
    rw [List.set_append, if_neg (by omega), Nat.sub_self]
    rfl

/-- The cascade loop deletes exactly the listed documents' files when none
of them fails: no error, the failing set is untouched, no file appears
that was not already there, distinct files stay distinct, each listed
document's file is gone afterwards, and unrelated files survive. -/
theorem deleteAddressCascade_ok :
    ∀ (docs : List DocumentMeta) (fsys : FSys),
      (∀ d ∈ docs, d.storedName ∉ fsys.failing) →
      (deleteAddressCascade docs fsys).1 = none ∧
      (deleteAddressCascade docs fsys).2.failing = fsys.failing ∧
      (∀ f ∈ (deleteAddressCascade docs fsys).2.files, f ∈ fsys.files) ∧
      (fsys.files.Nodup → (deleteAddressCascade docs fsys).2.files.Nodup) ∧
      (fsys.files.Nodup → ∀ d ∈ docs,
        d.storedName ∉ (deleteAddressCascade docs fsys).2.files) ∧
      (∀ f ∈ fsys.files, (∀ d ∈ docs, d.storedName ≠ f) →
        f ∈ (deleteAddressCascade docs fsys).2.files) := by
  intro docs
  induction docs with
  | nil =>
    intro fsys _
    exact ⟨rfl, rfl, fun f hf => hf, fun h => h,
      fun _ d hd => absurd hd (by simp), fun f hf _ => hf⟩
  | cons doc rest ih =>
    intro fsys hok
    have hnf : doc.storedName ∉ fsys.failing := hok doc (by simp)
    have hstep : deleteUploadFile doc fsys =
        .ok ⟨fsys.files.erase doc.storedName, fsys.failing⟩ := by
      unfold deleteUploadFile
      rw [if_neg hnf]
    have hrec : deleteAddressCascade (doc :: rest) fsys =
        deleteAddressCascade rest ⟨fsys.files.erase doc.storedName,
          fsys.failing⟩ := by
      conv_lhs => unfold deleteAddressCascade
      rw [hstep]
    rw [hrec]
    obtain ⟨h1, h2, h3, h4, h5, h6⟩ :=
      ih ⟨fsys.files.erase doc.storedName, fsys.failing⟩
        (fun d hd => hok d (by simp [hd]))
    refine ⟨h1, h2, ?_, ?_, ?_, ?_⟩
    · intro f hf
      exact List.erase_subset _ _ (h3 f hf)
    · intro hnd
      exact h4 (List.Nodup.erase _ hnd)
    · intro hnd d hd
      rcases List.mem_cons.mp hd with rfl | hd
      · intro hmem
        have hmem2 := h3 _ hmem
        dsimp only at hmem2
        rw [hnd.mem_erase_iff] at hmem2
        exact hmem2.1 rfl
      · exact h5 (List.Nodup.erase _ hnd) d hd
    · intro f hf hother
      apply h6 f
      · have hne : f ≠ doc.storedName := Ne.symm (hother doc (by simp))
        exact (List.mem_erase_of_ne hne).mpr hf
      · exact fun d hd => hother d (by simp [hd])

/-- C5 (amended): `deleteAddress` is a no-op on an id that no address or
document references; when every removed document's file deletion succeeds
(an already-absent file counts as success), it removes the address, every
document whose `addressId` matches, and each such document's backing file,
keeps unrelated files, and persists the filtered snapshot; when one file
deletion fails unexpectedly the error propagates out of the loop, so the
snapshot is left unchanged rather than persisted. -/
theorem deleteAddress_contract (id : String) (store : Store) (fsys : FSys) :
    ((∀ a ∈ store.addresses, a.id ≠ id) →
      (∀ d ∈ store.documents, d.addressId ≠ id) →
      deleteAddress id store fsys = (none, store, fsys)) ∧
    ((∀ d ∈ store.documents, d.addressId = id →
        d.storedName ∉ fsys.failing) →
      ((deleteAddress id store fsys).1 = none ∧
        (deleteAddress id store fsys).2.1 =
          ⟨store.addresses.filter (fun a => a.id != id),
            store.documents.filter (fun d => d.addressId != id)⟩ ∧
        (fsys.files.Nodup → ∀ d ∈ store.documents, d.addressId = id →
          d.storedName ∉ (deleteAddress id store fsys).2.2.files) ∧
        (∀ f ∈ fsys.files,
          (∀ d ∈ store.documents, d.addressId = id → d.storedName ≠ f) →
          f ∈ (deleteAddress id store fsys).2.2.files))) ∧
    (∀ e, (deleteAddress id store fsys).1 = some e →
      (deleteAddress id store fsys).2.1 = store) := by
  refine ⟨?_, ?_, ?_⟩
  · intro haddr hdocs
    have h1 : store.addresses.filter (fun a => a.id != id) =
        store.addresses :=
      List.filter_eq_self.mpr (fun a ha => by simp [haddr a ha])
    have h2 : store.documents.filter (fun d => d.addressId == id) = [] :=
      List.filter_eq_nil_iff.mpr (fun d hd => by simp [hdocs d hd])
    have h3 : store.documents.filter (fun d => d.addressId != id) =
        store.documents :=
      List.filter_eq_self.mpr (fun d hd => by simp [hdocs d hd])
    unfold deleteAddress
    simp only [h1, h2, h3, deleteAddressCascade]
  · intro hok
    obtain ⟨h1, h2, h3, h4, h5, h6⟩ := deleteAddressCascade_ok
      (store.documents.filter (fun d => d.addressId == id)) fsys
      (fun d hd => by
        rw [List.mem_filter] at hd
        exact hok d hd.1 (by simpa using hd.2))
    have heval : deleteAddress id store fsys = (none,
        ⟨store.addresses.filter (fun a => a.id != id),
          store.documents.filter (fun d => d.addressId != id)⟩,
        (deleteAddressCascade (store.documents.filter
          (fun d => d.addressId == id)) fsys).2) := by
      unfold deleteAddress
      rcases hc : deleteAddressCascade (store.documents.filter
        (fun d => d.addressId == id)) fsys with ⟨err, fs2⟩
      rw [hc] at h1
      dsimp only at h1
      subst h1
      simp only [hc]
    rw [heval]
    refine ⟨rfl, rfl, ?_, ?_⟩
    · intro hnd d hd hdid
      apply h5 hnd
      rw [List.mem_filter]
      exact ⟨hd, by simp [hdid]⟩
    · intro f hf hother
      apply h6 f hf
      intro d hd
      rw [List.mem_filter] at hd
      exact hother d hd.1 (by simpa using hd.2)
  · intro e he
    unfold deleteAddress at he ⊢
    rcases hc : deleteAddressCascade (store.documents.filter
      (fun d => d.addressId == id)) fsys with ⟨err, fs2⟩
    simp only [hc] at he ⊢
    cases err with
    | none => exact Option.noConfusion he
    | some e2 => rfl

/-- C7 (amended): `writeStore` ensures the data directories and then
performs one direct `fs.writeFile` of the snapshot to the store path;
nothing else. -/
theorem writeStore_direct_write :
    writeStoreTrace =
      [FileOp.mkdirRecursive uploadsDir, FileOp.writeFileDirect storePath] :=
  rfl

/-- C7 counterexample: the trace of `writeStore` contains no atomic
rename-replace at all, and it does write the store path in place, so the
claimed write-to-temp-then-rename (or equivalent atomic replace) pattern
is absent. -/
theorem writeStore_no_atomic_replace :
    writeStoreTrace.all (fun op => !op.isRenameReplace) = true ∧
      FileOp.writeFileDirect storePath ∈ writeStoreTrace := by
  decide

/-- C5 counterexample: with the first document's file deletion failing
unexpectedly, `deleteAddress` surfaces the error but the cascade does not
complete — the second document's file is still present — and the updated
snapshot is not persisted: the store still contains the address and both
documents, contradicting the claim that the cascade completes for the
remaining documents and the snapshot is persisted. -/
theorem deleteAddress_failure_counterexample :
    (deleteAddress "A" cexStore cexFSys).1 = some "f1" ∧
      (deleteAddress "A" cexStore cexFSys).2.1 = cexStore ∧
      "f2" ∈ (deleteAddress "A" cexStore cexFSys).2.2.files ∧
      cexDoc2 ∈ cexStore.documents ∧ cexDoc2.addressId = "A" := by
  decide

/-- C9 (amended): when all four dates parse, `addressOverlapsRange` is
exactly the intersection test `addressStart <= rangeEnd && rangeStart <=
effectiveEnd`, with no inversion check; the Gap Engine's keep step, by
contrast, keeps an address exactly when its parsed interval is not
inverted, regardless of whether it intersects the query range. -/
theorem addressOverlapsRange_characterization (startDate : String)
    (endDate : Option String) (rangeStart rangeEnd : String)
    (aS aE S E : Date)
    (h1 : parseDate startDate = some aS)
    (h2 : parseDate (endDate.getD rangeEnd) = some aE)
    (h3 : parseDate rangeStart = some S)
    (h4 : parseDate rangeEnd = some E) :
    (addressOverlapsRange startDate endDate rangeStart rangeEnd =
      (decide (dateLe aS E) && decide (dateLe S aE))) ∧
    (∀ a : Address, a.startDate = startDate → a.endDate = endDate →
      ∀ lo hi : Date,
        (parsedRanges [a] ⟨rangeStart, rangeEnd⟩ lo hi ≠ [] ↔
          dateLe aS aE)) := by
  constructor
  · unfold addressOverlapsRange
    simp only [h1, h2, h3, h4]
  · intro a hsd hed lo hi
    have hsd2 : parseDate a.startDate = some aS := by rw [hsd]; exact h1
    have hed2 : parseDate
        (a.endDate.getD (⟨rangeStart, rangeEnd⟩ : DateRange).stop) =
        some aE := by rw [hed]; exact h2
    by_cases hlt : dateLt aE aS
    · have hval : parsedRanges [a] ⟨rangeStart, rangeEnd⟩ lo hi = [] := by
        unfold parsedRanges
        rw [List.filterMap_cons]
        simp only [hsd2, hed2, if_pos hlt, List.filterMap_nil]
      rw [hval]
      exact iff_of_false (by simp) (fun hle => (not_dateLt_iff.mpr hle) hlt)
    · have hval : parsedRanges [a] ⟨rangeStart, rangeEnd⟩ lo hi =
          [(clampDate aS lo hi, clampDate aE lo hi)] := by
        unfold parsedRanges
        rw [List.filterMap_cons]
        simp only [hsd2, hed2, if_neg hlt, List.filterMap_nil]
      rw [hval]
      exact iff_of_true (by simp) (not_dateLt_iff.mp hlt)

/-- C9 counterexample: for an address entirely before the query range,
`addressOverlapsRange` answers false, yet the Gap Engine's
parse/discard/clamp step keeps the address as the non-empty clamped
interval consisting of the range's first day — and that spurious coverage
is observable in the output, which starts the gap on the second day of the
range instead of flagging the whole range as uncovered. -/
theorem addressOverlapsRange_vs_engine_counterexample :
    addressOverlapsRange "1990-01-01" (some "1990-12-31") "2020-01-01"
        "2020-12-31" = false ∧
      parseDate "2020-01-01" = some ⟨2020, 1, 1⟩ ∧
      parseDate "2020-12-31" = some ⟨2020, 12, 31⟩ ∧
      parsedRanges [cexOldAddress] ⟨"2020-01-01", "2020-12-31"⟩
          ⟨2020, 1, 1⟩ ⟨2020, 12, 31⟩ =
        [(⟨2020, 1, 1⟩, ⟨2020, 1, 1⟩)] ∧
      getCoverageGaps [cexOldAddress] ⟨"2020-01-01", "2020-12-31"⟩ =
        [⟨"2020-01-02", "2020-12-31", false, true⟩] := by
  decide

/-- Day normalization is the identity when the day fits the month. -/
theorem normalizeDayAux_eq_self {fuel y m d : Nat}
    (h : d ≤ daysInMonth y m) : normalizeDayAux fuel y m d = ⟨y, m, d⟩ := by
  cases fuel with
  | zero => rfl
  | succ fuel =>
    simp only [normalizeDayAux]
    rw [if_neg (by omega)]

/-- One rolling step of day normalization within a year. -/
theorem normalizeDayAux_step {fuel y m d : Nat} (h : daysInMonth y m < d)
    (hm : m ≠ 12) :
    normalizeDayAux (fuel + 1) y m d =
      normalizeDayAux fuel y (m + 1) (d - daysInMonth y m) := by
  simp only [normalizeDayAux]
  rw [if_pos h, if_neg hm]

/-- Month lengths of months other than February do not depend on the
year. -/
theorem daysInMonth_indep {m : Nat} (h : m ≠ 2) (y1 y2 : Nat) :
    daysInMonth y1 m = daysInMonth y2 m := by
  unfold daysInMonth
  rw [if_neg h, if_neg h]

/-- February has at most 29 days. -/
theorem daysInMonth_feb_le (y : Nat) : daysInMonth y 2 ≤ 29 := by
  unfold daysInMonth
  rw [if_pos rfl]
  split_ifs <;> omega

/-- `Date.UTC(y, m-1, d)` is the identity on valid components when the
year is beyond the two-digit range. -/
theorem dateUTC_self {y m d : Nat} (hy : 100 ≤ y) (hm1 : 1 ≤ m)
    (hm2 : m ≤ 12) (hd1 : 1 ≤ d) (hd2 : d ≤ daysInMonth y m) :
    dateUTC y (m - 1) d = ⟨y, m, d⟩ := by
  unfold dateUTC
  have h1 : ¬ y ≤ 99 := by omega
  have h2 : (m - 1) / 12 = 0 := Nat.div_eq_of_lt (by omega)
  have h3 : (m - 1) % 12 = m - 1 := Nat.mod_eq_of_lt (by omega)
  have h4 : m - 1 + 1 = m := by omega
  simp only [if_neg h1, h2, h3, h4, Nat.add_zero]
  rw [if_neg (by omega : ¬ d = 0)]
  unfold normalizeDay
  exact normalizeDayAux_eq_self hd2

/-- C8 (amended): for every well-formed `today` whose year is at least 103
(keeping both `today` and the target year clear of the ECMAScript
two-digit-year remapping), `getLastThreeYearsRange` ends on today's
calendar date and starts on the date three calendar years earlier with the
same month, the day clamped to the target month's length. -/
theorem getLastThreeYearsRange_subtract_clamp (today : Date)
    (h : NormalizedDate today) (hy : 103 ≤ today.y) :
    getLastThreeYearsRange today =
      ⟨formatDate ⟨today.y - 3, today.m,
          min today.d (daysInMonth (today.y - 3) today.m)⟩,
        formatDate today⟩ := by
  obtain ⟨y, m, d⟩ := today
  rw [NormalizedDate_mk] at h
  have hy2 : 103 ≤ y := hy
  unfold getLastThreeYearsRange
  dsimp only
  have hend : dateUTC y (m - 1) d = ⟨y, m, d⟩ :=
    dateUTC_self (by omega) (by omega) (by omega) (by omega) h.2.2.2.2
  rw [hend]
  unfold subtractYears
  dsimp only
  by_cases hd2 : d ≤ daysInMonth (y - 3) m
  · have hcand : dateUTC (y - 3) (m - 1) d = ⟨y - 3, m, d⟩ :=
      dateUTC_self (by omega) (by omega) (by omega) (by omega) hd2
    rw [hcand]
    rw [if_neg (show ¬ ((⟨y - 3, m, d⟩ : Date).m - 1 ≠ m - 1) by simp)]
    rw [Nat.min_eq_left hd2]
  · have hm2 : m = 2 := by
      by_contra hne
      have heq := daysInMonth_indep hne (y - 3) y
      omega
    subst hm2
    have hfle3 := daysInMonth_feb_le (y - 3)
    have hfle := daysInMonth_feb_le y
    have hge3 := (daysInMonth_bounds (y - 3) 2).1
    have hd29 : d = 29 := by omega
    have hdim28 : daysInMonth (y - 3) 2 = 28 := by omega
    subst hd29
    have hcand : dateUTC (y - 3) (2 - 1) 29 = ⟨y - 3, 3, 1⟩ := by
      unfold dateUTC
      have e1 : ¬ (y - 3 ≤ 99) := by omega
      simp only [if_neg e1]
      norm_num
      unfold normalizeDay
      have hstep : normalizeDayAux 29 (y - 3) 2 29 =
          normalizeDayAux 28 (y - 3) 3 (29 - daysInMonth (y - 3) 2) :=
        normalizeDayAux_step (by omega) (by norm_num)
      rw [hstep, hdim28]
      norm_num
      exact normalizeDayAux_eq_self (daysInMonth_pos _ _)
    rw [hcand]
    rw [if_pos (show (⟨y - 3, 3, 1⟩ : Date).m - 1 ≠ 2 - 1 by simp)]
    have hfin : dateUTC (y - 3) (2 - 1 + 1) 0 = ⟨y - 3, 2, 28⟩ := by
      unfold dateUTC
      have e1 : ¬ (y - 3 ≤ 99) := by omega
      simp only [if_neg e1]
      norm_num
      exact hdim28
    rw [hfin, hdim28]
    norm_num

/-- C8 counterexample: for a well-formed `today` in year 50, ECMAScript's
two-digit-year remapping inside `Date.UTC` makes `getLastThreeYearsRange`
end on 1950-06-15 rather than 0050-06-15, so the range's end is not
today's calendar date as the claim states for every date. -/
theorem getLastThreeYearsRange_year50_counterexample :
    NormalizedDate ⟨50, 6, 15⟩ ∧
      getLastThreeYearsRange ⟨50, 6, 15⟩ = ⟨"1947-06-15", "1950-06-15"⟩ ∧
      (getLastThreeYearsRange ⟨50, 6, 15⟩).stop ≠ formatDate ⟨50, 6, 15⟩ := by
  decide

/-- Witness for C1 at the specification's worked example. -/
theorem getCoverageGaps_internal_gaps_witness :
    (getCoverageGaps [gapAddrA, gapAddrB]
        ⟨"2021-01-01", "2022-01-01"⟩).filter
        (fun g => !g.isLeading && !g.isTrailing) =
      [⟨formatDate (addOneDay ⟨2021, 6, 30⟩),
        formatDate (subOneDay ⟨2021, 9, 1⟩), false, false⟩] :=
  (getCoverageGaps_internal_gaps [gapAddrA, gapAddrB]
      ⟨"2021-01-01", "2022-01-01"⟩ ⟨2021, 1, 1⟩ ⟨2022, 1, 1⟩
      (by decide) (by decide) (by decide)).2
    ⟨2021, 1, 1⟩ ⟨2021, 6, 30⟩ ⟨2021, 9, 1⟩ ⟨2022, 1, 1⟩
    (by decide) (by decide)

/-- Witness for C2: nothing survives, the whole range is one flagged
gap. -/
theorem getCoverageGaps_no_survivors_witness :
    getCoverageGaps [gapAddrBad] ⟨"2022-01-01", "2025-01-01"⟩ =
      [⟨"2022-01-01", "2025-01-01", true, true⟩] :=
  (getCoverageGaps_no_survivors [gapAddrBad] ⟨"2022-01-01", "2025-01-01"⟩
    ⟨2022, 1, 1⟩ ⟨2025, 1, 1⟩ (by decide) (by decide) (by decide)
    (by decide)).1

/-- Witness for C3: splitting the all-of-2021 interval at mid-year. -/
theorem getCoverageGaps_split_invariant_witness :
    getCoverageGaps ([] ++ gapAddrC :: []) ⟨"2021-01-01", "2021-12-31"⟩ =
      getCoverageGaps
        ([] ++ { gapAddrC with endDate := some "2021-06-30" } ::
          { gapAddrC with startDate := "2021-07-01" } :: [])
        ⟨"2021-01-01", "2021-12-31"⟩ :=
  getCoverageGaps_split_invariant [] [] gapAddrC
    ⟨"2021-01-01", "2021-12-31"⟩ "2021-06-30" "2021-07-01"
    ⟨2021, 1, 1⟩ ⟨2021, 12, 31⟩ ⟨2021, 6, 30⟩
    (by decide) (by decide) (by decide) (by decide) (by decide) (by decide)

/-- Witness for C4: an address with unparseable start date changes
nothing. -/
theorem getCoverageGaps_discards_malformed_witness :
    getCoverageGaps ([] ++ gapAddrBad :: [gapAddrA])
        ⟨"2021-01-01", "2022-01-01"⟩ =
      getCoverageGaps ([] ++ [gapAddrA]) ⟨"2021-01-01", "2022-01-01"⟩ :=
  getCoverageGaps_discards_malformed [] [gapAddrA] gapAddrBad
    ⟨"2021-01-01", "2022-01-01"⟩ (Or.inl (by decide))

/-- Witness for C5 (amended): a clean cascade removes the address, the
documents and reports no error. -/
theorem deleteAddress_contract_witness :
    (deleteAddress "A" cexStore okFSys).1 = none ∧
      (deleteAddress "A" cexStore okFSys).2.1 =
        ⟨cexStore.addresses.filter (fun a => a.id != "A"),
          cexStore.documents.filter (fun d => d.addressId != "A")⟩ :=
  ⟨((deleteAddress_contract "A" cexStore okFSys).2.1 (by decide)).1,
    ((deleteAddress_contract "A" cexStore okFSys).2.1 (by decide)).2.1⟩

/-- Witness for C6: updating the only stored address rewrites exactly that
record. -/
theorem updateAddress_contract_witness :
    updateAddress "A"
        ⟨some "2 New Street", none, none, none, none, none, none, none⟩
        "2026" cexStore =
      (some (applyUpdates cexAddress
          ⟨some "2 New Street", none, none, none, none, none, none, none⟩
          "2026"),
        ⟨[] ++ applyUpdates cexAddress
            ⟨some "2 New Street", none, none, none, none, none, none, none⟩
            "2026" :: [],
          cexStore.documents⟩) :=
  ((updateAddress_contract "A"
      ⟨some "2 New Street", none, none, none, none, none, none, none⟩
      "2026" cexStore).2 [] cexAddress [] rfl (by simp) rfl).1

/-- Witness for C8 (amended) at a leap-day `today`. -/
theorem getLastThreeYearsRange_subtract_clamp_witness :
    getLastThreeYearsRange ⟨2024, 2, 29⟩ =
      ⟨formatDate ⟨2024 - 3, 2, min 29 (daysInMonth (2024 - 3) 2)⟩,
        formatDate ⟨2024, 2, 29⟩⟩ :=
  getLastThreeYearsRange_subtract_clamp ⟨2024, 2, 29⟩ (by decide) (by decide)

/-- Witness for C9 (amended) on an in-range address. -/
theorem addressOverlapsRange_characterization_witness :
    addressOverlapsRange "2021-05-01" (some "2021-06-01") "2021-01-01"
        "2021-12-31" =
      (decide (dateLe ⟨2021, 5, 1⟩ ⟨2021, 12, 31⟩) &&
        decide (dateLe ⟨2021, 1, 1⟩ ⟨2021, 6, 1⟩)) :=
  (addressOverlapsRange_characterization "2021-05-01" (some "2021-06-01")
    "2021-01-01" "2021-12-31" ⟨2021, 5, 1⟩ ⟨2021, 6, 1⟩ ⟨2021, 1, 1⟩
    ⟨2021, 12, 31⟩ (by decide) (by decide) (by decide) (by decide)).1

/-- Witness for C10: an inverted query range yields the empty report. -/
theorem getCoverageGaps_malformed_range_witness :
    getCoverageGaps [gapAddrA] ⟨"2022-01-01", "2021-01-01"⟩ = [] :=
  getCoverageGaps_malformed_range [gapAddrA] ⟨"2022-01-01", "2021-01-01"⟩
    (Or.inr (Or.inr ⟨⟨2022, 1, 1⟩, ⟨2021, 1, 1⟩, by decide, by decide,
      by decide⟩))
